import Mathlib

/-!
Verification of the validator-epoch manager (`near/src/validator_manager.rs`)
and the encoded-chunk cache (`chain/chunks/src/chunk_cache.rs`).

Modelling conventions, shared by the whole file:
* `u64`/`u128` quantities (block indices, balances, seat counts) are `Nat`;
  none of the verified properties depends on wrap-around, and where the Rust
  code would panic (out-of-bounds indexing, division/remainder by zero,
  `unwrap` of `None`) the embedding returns an explicit error/`none` value.
* `AccountId`, block hashes and chunk hashes are opaque identifiers, modelled
  as `Nat`.  The pre-genesis sentinel hash (`CryptoHash::default()`) is `0`.
* `BTreeMap` is modelled by an association list kept sorted by key
  (`oinsert`/`olookup` below); its iteration order is the list order, which
  matches the sorted iteration order of `BTreeMap`.
* `HashMap`s that are only read through `get`/`contains_key` are modelled by
  the same association lists (lookup semantics is all that matters).  Where a
  `HashMap` is *iterated* (the kickout loop of `finalize_epoch`) the
  nondeterministic iteration order is made explicit: the map is passed in as
  the list of its entries in iteration order.
-/

set_option maxRecDepth 8000

/-- Association-list lookup: first entry with the given key. -/
def olookup {α : Type} : List (Nat × α) → Nat → Option α
  | [], _ => none
  | (k, v) :: rest, key => if key = k then some v else olookup rest key

/-- Insert, keeping the list sorted by key and overwriting an existing
entry, mirroring `BTreeMap::insert`. -/
def oinsert {α : Type} : List (Nat × α) → Nat → α → List (Nat × α)
  | [], k, v => [(k, v)]
  | (k', v') :: rest, k, v =>
    if k < k' then (k, v) :: (k', v') :: rest
    else if k = k' then (k, v) :: rest
    else (k', v') :: oinsert rest k v

/-- Remove the entry with the given key, mirroring `HashMap::remove`. -/
def oerase {α : Type} (m : List (Nat × α)) (k : Nat) : List (Nat × α) :=
  m.filter (fun e => e.1 != k)

theorem olookup_oinsert_self {α : Type} (m : List (Nat × α)) (k : Nat) (v : α) :
    olookup (oinsert m k v) k = some v := by
  induction m with
  | nil => simp [oinsert, olookup]
  | cons e rest ih =>
    obtain ⟨k', v'⟩ := e
    by_cases h1 : k < k'
    · simp [oinsert, olookup, h1]
    · by_cases h2 : k = k'
      · simp [oinsert, olookup, h1, h2]
      · simp [oinsert, olookup, h1, h2, ih]

theorem olookup_oinsert_ne {α : Type} (m : List (Nat × α)) (k j : Nat) (v : α)
    (h : j ≠ k) : olookup (oinsert m k v) j = olookup m j := by
  induction m with
  | nil => simp [oinsert, olookup, h]
  | cons e rest ih =>
    obtain ⟨k', v'⟩ := e
    by_cases h1 : k < k'
    · simp [oinsert, olookup, h1, h]
    · by_cases h2 : k = k'
      · subst h2
        simp [oinsert, olookup, h1, h]
      · by_cases h3 : j = k'
        · simp [oinsert, olookup, h1, h2, h3]
        · simp [oinsert, olookup, h1, h2, h3, ih]

theorem mem_oinsert {α : Type} (m : List (Nat × α)) (k : Nat) (v : α) (e : Nat × α)
    (h : e ∈ oinsert m k v) : e = (k, v) ∨ e ∈ m := by
  induction m with
  | nil => simpa [oinsert] using h
  | cons e' rest ih =>
    obtain ⟨k', v'⟩ := e'
    rw [oinsert] at h
    split at h
    · rcases List.mem_cons.mp h with h | h
      · exact Or.inl h
      · exact Or.inr h
    · split at h
      · rcases List.mem_cons.mp h with h | h
        · exact Or.inl h
        · exact Or.inr (List.mem_cons_of_mem _ h)
      · rcases List.mem_cons.mp h with h | h
        · exact Or.inr (h ▸ List.mem_cons_self _ _)
        · rcases ih h with h2 | h2
          · exact Or.inl h2
          · exact Or.inr (List.mem_cons_of_mem _ h2)

/-- Sum of `f` over a map after inserting a key that was absent. -/
theorem sum_map_oinsert {α : Type} (f : Nat × α → Nat) (m : List (Nat × α))
    (k : Nat) (v : α) (h : olookup m k = none) :
    ((oinsert m k v).map f).sum = f (k, v) + (m.map f).sum := by
  induction m with
  | nil => simp [oinsert]
  | cons e rest ih =>
    obtain ⟨k', v'⟩ := e
    by_cases h1 : k < k'
    · rw [oinsert, if_pos h1]
      simp
    · rw [oinsert, if_neg h1]
      by_cases h2 : k = k'
      · exfalso
        rw [olookup] at h
        simp [h2] at h
      · rw [if_neg h2]
        have h3 : olookup rest k = none := by
          rw [olookup] at h
          simpa [h2] using h
        simp only [List.map_cons, List.sum_cons, ih h3]
        omega

theorem pairwise_oinsert {α : Type} (m : List (Nat × α)) (k : Nat) (v : α)
    (h : m.Pairwise (fun x y => x.1 < y.1)) :
    (oinsert m k v).Pairwise (fun x y => x.1 < y.1) := by
  induction m with
  | nil => simp [oinsert]
  | cons e rest ih =>
    obtain ⟨k', v'⟩ := e
    rw [List.pairwise_cons] at h
    obtain ⟨hlt, hrest⟩ := h
    by_cases h1 : k < k'
    · rw [oinsert, if_pos h1]
      refine List.pairwise_cons.mpr ⟨?_, List.pairwise_cons.mpr ⟨hlt, hrest⟩⟩
      intro e he
      rcases List.mem_cons.mp he with h' | h'
      · rw [h']; exact h1
      · exact lt_trans h1 (hlt e h')
    · by_cases h2 : k = k'
      · rw [oinsert, if_neg h1, if_pos h2]
        subst h2
        exact List.pairwise_cons.mpr ⟨hlt, hrest⟩
      · rw [oinsert, if_neg h1, if_neg h2]
        refine List.pairwise_cons.mpr ⟨?_, ih hrest⟩
        intro e he
        rcases mem_oinsert rest k v e he with h' | h'
        · rw [h']
          exact Nat.lt_of_le_of_ne (Nat.le_of_not_lt h1) (Ne.symm h2)
        · exact hlt e h'

/-- On a key-sorted list, list membership implies `olookup` success. -/
theorem mem_imp_olookup {α : Type} (m : List (Nat × α))
    (h : m.Pairwise (fun x y => x.1 < y.1)) (a : Nat) (p : α)
    (hm : (a, p) ∈ m) : olookup m a = some p := by
  induction m with
  | nil => simp at hm
  | cons e rest ih =>
    obtain ⟨k', v'⟩ := e
    rw [List.pairwise_cons] at h
    obtain ⟨hlt, hrest⟩ := h
    rcases List.mem_cons.mp hm with h' | h'
    · have h1 : a = k' := congrArg Prod.fst h'
      have h2 : p = v' := congrArg Prod.snd h'
      subst h1; subst h2
      simp [olookup]
    · have hne : a ≠ k' := by
        intro hEq
        have := hlt (a, p) h'
        simp [hEq] at this
      rw [olookup, if_neg hne]
      exact ih hrest h'

theorem olookup_eq_some_mem {α : Type} (m : List (Nat × α)) (a : Nat) (p : α)
    (h : olookup m a = some p) : (a, p) ∈ m := by
  induction m with
  | nil => simp [olookup] at h
  | cons e rest ih =>
    obtain ⟨k', v'⟩ := e
    by_cases h1 : a = k'
    · subst h1
      rw [olookup, if_pos rfl] at h
      simp at h
      simp [h]
    · rw [olookup, if_neg h1] at h
      exact List.mem_cons_of_mem _ (ih h)

/-! ## `find_threshold` (validator_manager.rs, lines 85-106)

The Rust function does binary search with a hand-rolled loop.  On the input
`stakes = []` or `stakes = [0, …]` together with `num_seats = 0` the loop
never makes progress (`left = right = 1`) and the function runs forever; the
embedding makes that explicit by returning `none` from the loop.  The loop is
written with fuel so that it stays structurally recursive and computable by
`decide`; the caller passes fuel `stakes_sum + 2`, which exceeds the number
of iterations of any terminating run (the interval length shrinks strictly
once it has at least two elements). -/

/-- The early-exit accumulation in the Rust binary search:
`for item in stakes { current_sum += item / mid; if current_sum >= num_seats { … } }`.
Returns `true` exactly when the Rust loop takes the `left = mid` branch. -/
def currentSumLoop (seats mid : Nat) : List Nat → Nat → Bool
  | [], _ => false
  | s :: rest, acc =>
    let acc2 := acc + s / mid
    if seats ≤ acc2 then true else currentSumLoop seats mid rest acc2

/-- The binary-search loop of `find_threshold`.  `none` models the Rust loop
running forever (possible only when `left = right`, i.e. on stake-sum 0). -/
def ftLoop (stakes : List Nat) (seats : Nat) : Nat → Nat → Nat → Option Nat
  | 0, _, _ => none
  | fuel + 1, left, right =>
    if left + 1 = right then some left
    else if right ≤ left then none
    else
      if currentSumLoop seats ((left + right) / 2) stakes 0 then
        ftLoop stakes seats fuel ((left + right) / 2) right
      else ftLoop stakes seats fuel left ((left + right) / 2)

/-- `find_threshold` (validator_manager.rs:85).  `Except.error (sum, seats)`
is `ThresholdError(stakes_sum, num_seats)`; `Except.ok none` means the Rust
loop diverges. -/
def findThreshold (stakes : List Nat) (numSeats : Nat) : Except (Nat × Nat) (Option Nat) :=
  if stakes.sum < numSeats then .error (stakes.sum, numSeats)
  else .ok (ftLoop stakes numSeats (stakes.sum + 2) 1 (stakes.sum + 1))

/-- Seat count produced by a per-seat stake `t`: `Σ ⌊stakeᵢ / t⌋`. -/
def seatSum (stakes : List Nat) (t : Nat) : Nat :=
  (stakes.map (fun s => s / t)).sum

theorem currentSumLoop_spec (seats mid : Nat) (stakes : List Nat) (acc : Nat)
    (hacc : acc < seats) :
    currentSumLoop seats mid stakes acc =
      decide (seats ≤ acc + (stakes.map (fun s => s / mid)).sum) := by
  induction stakes generalizing acc with
  | nil => simp [currentSumLoop, Nat.not_le_of_lt hacc]
  | cons s rest ih =>
    by_cases h : seats ≤ acc + s / mid
    · have h2 : seats ≤ acc + (s / mid + (rest.map (fun s => s / mid)).sum) := by
        calc seats ≤ acc + s / mid := h
        _ ≤ acc + (s / mid + (rest.map (fun s => s / mid)).sum) := by omega
      simp [currentSumLoop, h, h2]
    · have hlt : acc + s / mid < seats := Nat.lt_of_not_le h
      rw [currentSumLoop]
      simp only [h, if_false]
      rw [ih (acc + s / mid) hlt]
      congr 1
      simp
      omega

theorem ftLoop_correct (stakes : List Nat) (seats : Nat) (hseats : 0 < seats) :
    ∀ fuel left right, left < right → right ≤ left + fuel →
      seats ≤ seatSum stakes left → seatSum stakes right < seats →
      ∃ t, ftLoop stakes seats fuel left right = some t ∧
        seats ≤ seatSum stakes t ∧ seatSum stakes (t + 1) < seats := by
  intro fuel
  induction fuel with
  | zero => intro l r h1 h2; omega
  | succ fuel ih =>
    intro l r hlr hfuel hl hr
    by_cases hstep : l + 1 = r
    · refine ⟨l, ?_, hl, ?_⟩
      · rw [ftLoop, if_pos hstep]
      · rw [hstep]; exact hr
    · have hnr : ¬ r ≤ l := Nat.not_le.mpr hlr
      have hmid1 : l < (l + r) / 2 := by omega
      have hmid2 : (l + r) / 2 < r := by omega
      have hcur : currentSumLoop seats ((l + r) / 2) stakes 0 =
          decide (seats ≤ seatSum stakes ((l + r) / 2)) := by
        rw [currentSumLoop_spec seats ((l + r) / 2) stakes 0 hseats]
        simp [seatSum]
      rw [ftLoop, if_neg hstep, if_neg hnr, hcur]
      by_cases htest : seats ≤ seatSum stakes ((l + r) / 2)
      · rw [if_pos (decide_eq_true htest)]
        exact ih ((l + r) / 2) r hmid2 (by omega) htest hr
      · rw [if_neg (by simp [htest])]
        exact ih l ((l + r) / 2) hmid1 (by omega) hl (Nat.lt_of_not_le htest)

/-- C2 (amended): for `num_seats ≥ 1`, `find_threshold` errors with
`ThresholdError(sum, seats)` iff the stake sum is below the seat count, and
otherwise returns a threshold `T` with `Σ ⌊stakeᵢ/T⌋ ≥ seats` and
`Σ ⌊stakeᵢ/(T+1)⌋ < seats`.  With `num_seats = 0` the Rust code never errors
and, when the sum is positive, returns a value violating the claimed bound
(see the counterexample theorem). -/
theorem findThreshold_correct (stakes : List Nat) (numSeats : Nat)
    (hne : stakes ≠ []) (hseats : 0 < numSeats) :
    (findThreshold stakes numSeats = .error (stakes.sum, numSeats) ↔ stakes.sum < numSeats) ∧
    (numSeats ≤ stakes.sum →
      ∃ t, findThreshold stakes numSeats = .ok (some t) ∧
        numSeats ≤ seatSum stakes t ∧ seatSum stakes (t + 1) < numSeats) := by
  constructor
  · constructor
    · intro h
      by_contra hge
      rw [findThreshold, if_neg hge] at h
      simp at h
    · intro h
      rw [findThreshold, if_pos h]
  · intro hge
    have hl : seatSum stakes 1 = stakes.sum := by
      simp [seatSum]
    have hr : seatSum stakes (stakes.sum + 1) = 0 := by
      unfold seatSum
      apply List.sum_eq_zero
      intro x hx
      rw [List.mem_map] at hx
      obtain ⟨s, hs, hmap⟩ := hx
      have : s ≤ stakes.sum := List.single_le_sum (fun _ _ => Nat.zero_le _) s hs
      rw [← hmap]
      exact Nat.div_eq_of_lt (by omega)
    have h1r : 1 < stakes.sum + 1 := by
      have : stakes.sum ≠ 0 := by omega
      omega
    obtain ⟨t, hloop, ht1, ht2⟩ :=
      ftLoop_correct stakes numSeats hseats (stakes.sum + 2) 1 (stakes.sum + 1)
        h1r (by omega) (by rw [hl]; exact hge) (by rw [hr]; exact hseats)
    refine ⟨t, ?_, ht1, ht2⟩
    rw [findThreshold, if_neg (Nat.not_lt.mpr hge), hloop]

/-- Witness for C2's amended theorem at the concrete test-suite input
`find_threshold([1_000_000, 1_000_000, 10], 10) = 200_000`. -/
theorem findThreshold_correct_witness :
    ∃ t, findThreshold [1000000, 1000000, 10] 10 = .ok (some t) ∧
      10 ≤ seatSum [1000000, 1000000, 10] t ∧
      seatSum [1000000, 1000000, 10] (t + 1) < 10 :=
  (findThreshold_correct [1000000, 1000000, 10] 10 (by decide) (by decide)).2 (by decide)

/-- C2 counterexample: for the non-empty stake list `[5]` with
`num_seats = 0` the code returns `Ok 5`, but the claimed characterisation
demands `Σ ⌊stakeᵢ/(T+1)⌋ < 0`, which no return value can satisfy. -/
theorem findThreshold_zero_seats_counterexample :
    findThreshold [5] 0 = .ok (some 5) ∧ ¬ seatSum [5] (5 + 1) < 0 := by
  constructor
  · rfl
  · simp

/-! ## Encoded-chunk cache (chain/chunks/src/chunk_cache.rs)

`SizedCache` (the LRU `block_hash_to_chunk_headers`) is modelled as an
association list in most-recently-set-first order, truncated to its capacity
on `cache_set`.  The caller-supplied `requested_chunks` registry is modelled
by the list of its keys (only membership is consulted). -/

def heightHorizonC : Nat := 1024

def maxHeightsAhead : Nat := 5

def numBlockHashToChunkHeader : Nat := 10

structure ShardChunkHeader where
  height_created : Nat
  prev_block_hash : Nat
  payload : Nat
deriving DecidableEq

structure PartialEncodedChunkPart where
  part_ord : Nat
  part_data : Nat
deriving DecidableEq

structure ReceiptProof where
  to_shard_id : Nat
  proof_data : Nat
deriving DecidableEq

structure PartialEncodedChunk where
  chunk_hash : Nat
  header : Option ShardChunkHeader
  parts : List PartialEncodedChunkPart
  receipts : List ReceiptProof
deriving DecidableEq

structure EncodedChunksCacheEntry where
  header : ShardChunkHeader
  parts : List (Nat × PartialEncodedChunkPart)
  receipts : List (Nat × ReceiptProof)
deriving DecidableEq

structure EncodedChunksCache where
  largest_seen_height : Nat
  encoded_chunks : List (Nat × EncodedChunksCacheEntry)
  height_map : List (Nat × List Nat)
  block_hash_to_chunk_headers : List (Nat × List (Nat × ShardChunkHeader))
deriving DecidableEq

/-- `EncodedChunksCacheEntry::from_chunk_header`. -/
def entryFromChunkHeader (h : ShardChunkHeader) : EncodedChunksCacheEntry :=
  ⟨h, [], []⟩

/-- The parts loop of `EncodedChunksCacheEntry::merge_in_partial_encoded_chunk`:
insert each part by `part_ord` only if absent. -/
def mergeParts : List PartialEncodedChunkPart →
    List (Nat × PartialEncodedChunkPart) → List (Nat × PartialEncodedChunkPart)
  | [], m => m
  | p :: rest, m =>
    mergeParts rest (if (olookup m p.part_ord).isSome then m else oinsert m p.part_ord p)

/-- The receipts loop: insert each receipt by `to_shard_id` only if absent. -/
def mergeReceipts : List ReceiptProof →
    List (Nat × ReceiptProof) → List (Nat × ReceiptProof)
  | [], m => m
  | r :: rest, m =>
    mergeReceipts rest (if (olookup m r.to_shard_id).isSome then m else oinsert m r.to_shard_id r)

/-- `EncodedChunksCacheEntry::merge_in_partial_encoded_chunk` (chunk_cache.rs:33). -/
def entryMerge (e : EncodedChunksCacheEntry) (pec : PartialEncodedChunk) :
    EncodedChunksCacheEntry :=
  { e with parts := mergeParts pec.parts e.parts,
           receipts := mergeReceipts pec.receipts e.receipts }

/-- `EncodedChunksCache::new`. -/
def cacheNew : EncodedChunksCache := ⟨0, [], [], []⟩

/-- `EncodedChunksCache::remove`. -/
def cacheRemove (c : EncodedChunksCache) (h : Nat) : EncodedChunksCache :=
  { c with encoded_chunks := oerase c.encoded_chunks h }

/-- `EncodedChunksCache::insert` (chunk_cache.rs:68): note that it only
touches `encoded_chunks`; nothing registers the chunk in `height_map`. -/
def cacheInsert (c : EncodedChunksCache) (h : Nat) (e : EncodedChunksCacheEntry) :
    EncodedChunksCache :=
  { c with encoded_chunks := oinsert c.encoded_chunks h e }

/-- `EncodedChunksCache::get_or_insert_from_header`; `none` models the
`unwrap` panic when the entry is absent and no header was supplied. -/
def getOrInsertFromHeader (c : EncodedChunksCache) (h : Nat)
    (hd : Option ShardChunkHeader) : Option EncodedChunksCache :=
  match olookup c.encoded_chunks h with
  | some _ => some c
  | none =>
    match hd with
    | some header =>
      some { c with encoded_chunks := oinsert c.encoded_chunks h (entryFromChunkHeader header) }
    | none => none

/-- `EncodedChunksCache::height_within_horizon`. -/
def heightWithinHorizon (c : EncodedChunksCache) (height : Nat) : Bool :=
  if height + heightHorizonC < c.largest_seen_height then false
  else if c.largest_seen_height + maxHeightsAhead < height then false
  else true

/-- `EncodedChunksCache::merge_in_partial_encoded_chunk` (chunk_cache.rs:93),
returning the updated cache and the accepted/rejected flag. -/
def mergeInPartialEncodedChunk (c : EncodedChunksCache) (pec : PartialEncodedChunk) :
    EncodedChunksCache × Bool :=
  match olookup c.encoded_chunks pec.chunk_hash with
  | some e =>
    ({ c with encoded_chunks := oinsert c.encoded_chunks pec.chunk_hash (entryMerge e pec) },
      true)
  | none =>
    match pec.header with
    | some hd =>
      ({ c with encoded_chunks :=
          oinsert c.encoded_chunks pec.chunk_hash (entryMerge (entryFromChunkHeader hd) pec) },
        true)
    | none => (c, false)

/-- `EncodedChunksCache::remove_from_cache_if_outside_horizon`. -/
def removeFromCacheIfOutsideHorizon (c : EncodedChunksCache) (h : Nat) :
    EncodedChunksCache :=
  match olookup c.encoded_chunks h with
  | some e =>
    if heightWithinHorizon c e.header.height_created then c
    else { c with encoded_chunks := oerase c.encoded_chunks h }
  | none => c

/-- Inner loop of `update_largest_seen_height`: drop every listed chunk that
is not in the caller's requested registry. -/
def sweepChunks (requested : List Nat) : List Nat →
    List (Nat × EncodedChunksCacheEntry) → List (Nat × EncodedChunksCacheEntry)
  | [], ec => ec
  | ch :: rest, ec =>
    sweepChunks requested rest (if requested.contains ch then ec else oerase ec ch)

/-- Outer loop of `update_largest_seen_height`: for each height in the swept
range, remove the `height_map` bucket and evict its unrequested chunks. -/
def sweepHeights (requested : List Nat) : List Nat → EncodedChunksCache → EncodedChunksCache
  | [], c => c
  | h :: rest, c =>
    match olookup c.height_map h with
    | some chunks =>
      sweepHeights requested rest
        { c with height_map := oerase c.height_map h,
                 encoded_chunks := sweepChunks requested chunks c.encoded_chunks }
    | none => sweepHeights requested rest c

/-- `EncodedChunksCache::update_largest_seen_height` (chunk_cache.rs:116). -/
def updateLargestSeenHeight (c : EncodedChunksCache) (newHeight : Nat)
    (requested : List Nat) : EncodedChunksCache :=
  let oldLargest := c.largest_seen_height
  sweepHeights requested
    (List.range' (oldLargest - heightHorizonC)
      ((newHeight - heightHorizonC) - (oldLargest - heightHorizonC)))
    { c with largest_seen_height := newHeight }

/-- `EncodedChunksCache::insert_chunk_header` (chunk_cache.rs:136). -/
def insertChunkHeader (c : EncodedChunksCache) (shard : Nat) (hd : ShardChunkHeader) :
    EncodedChunksCache :=
  if c.largest_seen_height - numBlockHashToChunkHeader < hd.height_created then
    let bucket := (olookup c.block_hash_to_chunk_headers hd.prev_block_hash).getD []
    let cleared := oerase c.block_hash_to_chunk_headers hd.prev_block_hash
    let updated := (hd.prev_block_hash, bucket ++ [(shard, hd)]) :: cleared
    { c with block_hash_to_chunk_headers := updated.take numBlockHashToChunkHeader }
  else c

/-- `EncodedChunksCache::get_chunk_headers_for_block` (consume-on-read). -/
def getChunkHeadersForBlock (c : EncodedChunksCache) (prevHash : Nat) :
    EncodedChunksCache × List (Nat × ShardChunkHeader) :=
  ({ c with block_hash_to_chunk_headers := oerase c.block_hash_to_chunk_headers prevHash },
    (olookup c.block_hash_to_chunk_headers prevHash).getD [])

/-- An entry whose header records `height_created = 10` (scenario S7). -/
def staleEntry : EncodedChunksCacheEntry := ⟨⟨10, 0, 0⟩, [], []⟩

/-- C3 evaluation at the failing input of scenario S7: after inserting a
chunk created at height 10 and advancing the largest seen height to 1040,
the entry is still in the cache even though `10 + HEIGHT_HORIZON < 1040` and
the requested registry is empty — `insert` never registers the chunk in
`height_map`, so the sweep finds nothing to evict. -/
theorem updateLargestSeenHeight_keeps_stale_entry :
    (olookup (updateLargestSeenHeight (cacheInsert cacheNew 7 staleEntry) 1040
        []).encoded_chunks 7).isSome = true ∧
      10 + heightHorizonC < 1040 := by
  constructor
  · rfl
  · decide

/-! ### C10: reachable cache states have an empty `height_map` -/

/-- The public mutating operations of `EncodedChunksCache`. -/
inductive CacheOp where
  | doRemove (h : Nat)
  | doInsert (h : Nat) (e : EncodedChunksCacheEntry)
  | doGetOrInsert (h : Nat) (hd : Option ShardChunkHeader)
  | doMerge (p : PartialEncodedChunk)
  | doRemoveOutside (h : Nat)
  | doUpdateHeight (newHeight : Nat) (requested : List Nat)
  | doInsertHeader (shard : Nat) (hd : ShardChunkHeader)
  | doGetHeaders (prevHash : Nat)
deriving DecidableEq

/-- One public operation; `none` models a Rust panic
(`get_or_insert_from_header` with an absent entry and no header). -/
def cacheStep (c : EncodedChunksCache) : CacheOp → Option EncodedChunksCache
  | .doRemove h => some (cacheRemove c h)
  | .doInsert h e => some (cacheInsert c h e)
  | .doGetOrInsert h hd => getOrInsertFromHeader c h hd
  | .doMerge p => some (mergeInPartialEncodedChunk c p).1
  | .doRemoveOutside h => some (removeFromCacheIfOutsideHorizon c h)
  | .doUpdateHeight newHeight requested => some (updateLargestSeenHeight c newHeight requested)
  | .doInsertHeader shard hd => some (insertChunkHeader c shard hd)
  | .doGetHeaders prevHash => some (getChunkHeadersForBlock c prevHash).1

def runCacheOps : List CacheOp → EncodedChunksCache → Option EncodedChunksCache
  | [], c => some c
  | op :: rest, c =>
    match cacheStep c op with
    | some c2 => runCacheOps rest c2
    | none => none

theorem sweepHeights_of_empty (requested : List Nat) (hs : List Nat)
    (c : EncodedChunksCache) (h : c.height_map = []) :
    sweepHeights requested hs c = c := by
  induction hs with
  | nil => rfl
  | cons x rest ih =>
    rw [sweepHeights, h]
    exact ih

theorem updateLargestSeenHeight_frame (c : EncodedChunksCache) (h : c.height_map = [])
    (newHeight : Nat) (requested : List Nat) :
    updateLargestSeenHeight c newHeight requested =
      { c with largest_seen_height := newHeight } := by
  unfold updateLargestSeenHeight
  exact sweepHeights_of_empty _ _ _ h

theorem mergeIn_height_map (c : EncodedChunksCache) (p : PartialEncodedChunk) :
    (mergeInPartialEncodedChunk c p).1.height_map = c.height_map := by
  rw [mergeInPartialEncodedChunk]
  cases hm : olookup c.encoded_chunks p.chunk_hash with
  | some e => rfl
  | none =>
    cases hh : p.header with
    | some hd => rfl
    | none => rfl

theorem cacheStep_height_map (c c2 : EncodedChunksCache) (op : CacheOp)
    (hstep : cacheStep c op = some c2) (h : c.height_map = []) : c2.height_map = [] := by
  cases op with
  | doRemove x =>
    rw [cacheStep] at hstep; cases hstep; exact h
  | doInsert x e =>
    rw [cacheStep] at hstep; cases hstep; exact h
  | doGetOrInsert x hd =>
    rw [cacheStep, getOrInsertFromHeader.eq_def] at hstep
    cases hm : olookup c.encoded_chunks x with
    | some e => simp only [hm] at hstep; cases hstep; exact h
    | none =>
      simp only [hm] at hstep
      cases hd with
      | some header => cases hstep; exact h
      | none => exact Option.noConfusion hstep
  | doMerge p =>
    rw [cacheStep] at hstep; cases hstep
    rw [mergeIn_height_map]; exact h
  | doRemoveOutside x =>
    rw [cacheStep, removeFromCacheIfOutsideHorizon.eq_def] at hstep
    cases hm : olookup c.encoded_chunks x with
    | some e =>
      simp only [hm] at hstep
      split at hstep <;> (cases hstep; exact h)
    | none => simp only [hm] at hstep; cases hstep; exact h
  | doUpdateHeight newHeight requested =>
    rw [cacheStep] at hstep; cases hstep
    rw [updateLargestSeenHeight_frame c h]
    exact h
  | doInsertHeader shard hd =>
    rw [cacheStep, insertChunkHeader] at hstep
    by_cases hcond :
        c.largest_seen_height - numBlockHashToChunkHeader < hd.height_created
    · rw [if_pos hcond] at hstep; cases hstep; exact h
    · rw [if_neg hcond] at hstep; cases hstep; exact h
  | doGetHeaders prevHash =>
    rw [cacheStep] at hstep; cases hstep; exact h

theorem runCacheOps_height_map (ops : List CacheOp) :
    ∀ c0 c, c0.height_map = [] → runCacheOps ops c0 = some c → c.height_map = [] := by
  induction ops with
  | nil =>
    intro c0 c h hr
    rw [runCacheOps] at hr
    cases hr
    exact h
  | cons op rest ih =>
    intro c0 c h hr
    rw [runCacheOps] at hr
    cases hstep : cacheStep c0 op with
    | none => rw [hstep] at hr; exact Option.noConfusion hr
    | some c1 =>
      rw [hstep] at hr
      exact ih c1 c (cacheStep_height_map c0 c1 op hstep h) hr

/-- C10: in every cache state reachable from `EncodedChunksCache::new()` by
public operations the `height_map` index is empty (no operation ever inserts
into it), and consequently `update_largest_seen_height` only changes
`largest_seen_height`: the chunk map and the prev-block header index are
untouched and the sweep never evicts anything. -/
theorem reachable_height_map_empty_update_frame (ops : List CacheOp)
    (c : EncodedChunksCache) (newHeight : Nat) (requested : List Nat)
    (hrun : runCacheOps ops cacheNew = some c) :
    c.height_map = [] ∧
    updateLargestSeenHeight c newHeight requested =
      { c with largest_seen_height := newHeight } := by
  have h := runCacheOps_height_map ops cacheNew c rfl hrun
  exact ⟨h, updateLargestSeenHeight_frame c h newHeight requested⟩

/-- The state reached by inserting one chunk and advancing the tip to 50. -/
def witnessCache10 : EncodedChunksCache :=
  ⟨50, [(7, ⟨⟨10, 0, 0⟩, [], []⟩)], [], []⟩

theorem reachable_height_map_empty_update_frame_witness :
    witnessCache10.height_map = [] ∧
    updateLargestSeenHeight witnessCache10 99 [4] =
      { witnessCache10 with largest_seen_height := 99 } :=
  reachable_height_map_empty_update_frame
    [CacheOp.doInsert 7 ⟨⟨10, 0, 0⟩, [], []⟩, CacheOp.doUpdateHeight 50 []]
    witnessCache10 99 [4] (by decide)

/-! ### C6: `merge_in_partial_encoded_chunk` acceptance and first-write-wins -/

/-- Left-biased choice on options: keep the first value if present. -/
def firstOr {α : Type} : Option α → Option α → Option α
  | some v, _ => some v
  | none, b => b

theorem firstOr_none_right {α : Type} (o : Option α) : firstOr o none = o := by
  cases o <;> rfl

theorem firstOr_assoc {α : Type} (a b c : Option α) :
    firstOr (firstOr a b) c = firstOr a (firstOr b c) := by
  cases a <;> rfl

theorem find?_append_firstOr {α : Type} (f : α → Bool) (l1 l2 : List α) :
    List.find? f (l1 ++ l2) = firstOr (List.find? f l1) (List.find? f l2) := by
  induction l1 with
  | nil => rfl
  | cons x rest ih =>
    by_cases hx : f x = true
    · rw [List.cons_append, List.find?_cons_of_pos _ hx, List.find?_cons_of_pos _ hx]
      rfl
    · rw [List.cons_append, List.find?_cons_of_neg _ hx, List.find?_cons_of_neg _ hx, ih]

/-- Lookup after the parts loop: an already-stored part wins, otherwise the
first part with the requested ordinal in the incoming list. -/
theorem mergeParts_char (parts : List PartialEncodedChunkPart) :
    ∀ m k, olookup (mergeParts parts m) k =
      firstOr (olookup m k) (parts.find? (fun pi => pi.part_ord == k)) := by
  induction parts with
  | nil =>
    intro m k
    rw [mergeParts, List.find?, firstOr_none_right]
  | cons p rest ih =>
    intro m k
    rw [mergeParts]
    by_cases hk : p.part_ord = k
    · subst hk
      cases hm : olookup m p.part_ord with
      | some v =>
        rw [show (if (some v : Option PartialEncodedChunkPart).isSome = true then m
              else oinsert m p.part_ord p) = m from rfl]
        rw [ih m p.part_ord, hm]
        simp [List.find?, firstOr]
      | none =>
        rw [show (if (none : Option PartialEncodedChunkPart).isSome = true then m
              else oinsert m p.part_ord p) = oinsert m p.part_ord p from rfl]
        rw [ih _ p.part_ord, olookup_oinsert_self]
        simp [List.find?, firstOr]
    · have hfind : List.find? (fun pi => pi.part_ord == k) (p :: rest) =
          List.find? (fun pi => pi.part_ord == k) rest :=
        List.find?_cons_of_neg _ (by simp [hk])
      rw [hfind]
      cases hm : olookup m p.part_ord with
      | some v =>
        rw [show (if (some v : Option PartialEncodedChunkPart).isSome = true then m
              else oinsert m p.part_ord p) = m from rfl]
        exact ih m k
      | none =>
        rw [show (if (none : Option PartialEncodedChunkPart).isSome = true then m
              else oinsert m p.part_ord p) = oinsert m p.part_ord p from rfl]
        rw [ih _ k, olookup_oinsert_ne _ _ _ _ (fun hEq => hk hEq.symm)]

/-- Lookup after the receipts loop (same shape as `mergeParts_char`). -/
theorem mergeReceipts_char (receipts : List ReceiptProof) :
    ∀ m s, olookup (mergeReceipts receipts m) s =
      firstOr (olookup m s) (receipts.find? (fun r => r.to_shard_id == s)) := by
  induction receipts with
  | nil =>
    intro m s
    rw [mergeReceipts, List.find?, firstOr_none_right]
  | cons r rest ih =>
    intro m s
    rw [mergeReceipts]
    by_cases hk : r.to_shard_id = s
    · subst hk
      cases hm : olookup m r.to_shard_id with
      | some v =>
        rw [show (if (some v : Option ReceiptProof).isSome = true then m
              else oinsert m r.to_shard_id r) = m from rfl]
        rw [ih m r.to_shard_id, hm]
        simp [List.find?, firstOr]
      | none =>
        rw [show (if (none : Option ReceiptProof).isSome = true then m
              else oinsert m r.to_shard_id r) = oinsert m r.to_shard_id r from rfl]
        rw [ih _ r.to_shard_id, olookup_oinsert_self]
        simp [List.find?, firstOr]
    · have hfind : List.find? (fun r2 => r2.to_shard_id == s) (r :: rest) =
          List.find? (fun r2 => r2.to_shard_id == s) rest :=
        List.find?_cons_of_neg _ (by simp [hk])
      rw [hfind]
      cases hm : olookup m r.to_shard_id with
      | some v =>
        rw [show (if (some v : Option ReceiptProof).isSome = true then m
              else oinsert m r.to_shard_id r) = m from rfl]
        exact ih m s
      | none =>
        rw [show (if (none : Option ReceiptProof).isSome = true then m
              else oinsert m r.to_shard_id r) = oinsert m r.to_shard_id r from rfl]
        rw [ih _ s, olookup_oinsert_ne _ _ _ _ (fun hEq => hk hEq.symm)]

/-- The accepted/rejected flag equals: an entry already exists for the chunk
hash, or the partial carries a header. -/
theorem mergeIn_flag (c : EncodedChunksCache) (p : PartialEncodedChunk) :
    (mergeInPartialEncodedChunk c p).2 =
      ((olookup c.encoded_chunks p.chunk_hash).isSome || p.header.isSome) := by
  rw [mergeInPartialEncodedChunk]
  cases hm : olookup c.encoded_chunks p.chunk_hash with
  | some e => rfl
  | none =>
    cases hh : p.header with
    | some hd => rfl
    | none => rfl

/-- A rejected partial leaves the cache unchanged. -/
theorem mergeIn_rejected (c : EncodedChunksCache) (p : PartialEncodedChunk)
    (h : (mergeInPartialEncodedChunk c p).2 = false) :
    (mergeInPartialEncodedChunk c p).1 = c := by
  rw [mergeInPartialEncodedChunk] at h ⊢
  cases hm : olookup c.encoded_chunks p.chunk_hash with
  | some e => rw [hm] at h; exact Bool.noConfusion h
  | none =>
    rw [hm] at h
    cases hh : p.header with
    | some hd => rw [hh] at h; exact Bool.noConfusion h
    | none => rfl

/-- Merging touches only the entry of the partial's own chunk hash. -/
theorem mergeIn_ec_ne (c : EncodedChunksCache) (p : PartialEncodedChunk) (h : Nat)
    (hne : h ≠ p.chunk_hash) :
    olookup (mergeInPartialEncodedChunk c p).1.encoded_chunks h =
      olookup c.encoded_chunks h := by
  rw [mergeInPartialEncodedChunk]
  cases hm : olookup c.encoded_chunks p.chunk_hash with
  | some e => exact olookup_oinsert_ne _ _ _ _ hne
  | none =>
    cases hh : p.header with
    | some hd => exact olookup_oinsert_ne _ _ _ _ hne
    | none => rfl

theorem mergeIn_ec_self_some (c : EncodedChunksCache) (p : PartialEncodedChunk)
    (e0 : EncodedChunksCacheEntry) (hm : olookup c.encoded_chunks p.chunk_hash = some e0) :
    olookup (mergeInPartialEncodedChunk c p).1.encoded_chunks p.chunk_hash =
      some (entryMerge e0 p) := by
  rw [mergeInPartialEncodedChunk, hm]
  exact olookup_oinsert_self _ _ _

theorem mergeIn_ec_self_new (c : EncodedChunksCache) (p : PartialEncodedChunk)
    (hd : ShardChunkHeader) (hm : olookup c.encoded_chunks p.chunk_hash = none)
    (hh : p.header = some hd) :
    olookup (mergeInPartialEncodedChunk c p).1.encoded_chunks p.chunk_hash =
      some (entryMerge (entryFromChunkHeader hd) p) := by
  rw [mergeInPartialEncodedChunk, hm, hh]
  exact olookup_oinsert_self _ _ _

/-- Run a sequence of `merge_in_partial_encoded_chunk` calls. -/
def runMerges : List PartialEncodedChunk → EncodedChunksCache → EncodedChunksCache
  | [], c => c
  | p :: rest, c => runMerges rest (mergeInPartialEncodedChunk c p).1

/-- The parts carried by partials for chunk hash `ch` that are *accepted*
during the run, concatenated in arrival order. -/
def acceptedParts (ch : Nat) : List PartialEncodedChunk → EncodedChunksCache →
    List PartialEncodedChunkPart
  | [], _ => []
  | p :: rest, c =>
    (if (mergeInPartialEncodedChunk c p).2 = true ∧ p.chunk_hash = ch then p.parts else []) ++
      acceptedParts ch rest (mergeInPartialEncodedChunk c p).1

/-- The receipts carried by accepted partials for chunk hash `ch`. -/
def acceptedReceipts (ch : Nat) : List PartialEncodedChunk → EncodedChunksCache →
    List ReceiptProof
  | [], _ => []
  | p :: rest, c =>
    (if (mergeInPartialEncodedChunk c p).2 = true ∧ p.chunk_hash = ch then p.receipts else []) ++
      acceptedReceipts ch rest (mergeInPartialEncodedChunk c p).1

/-- The part stored under ordinal `k` in an optional entry. -/
def entryPartAt (o : Option EncodedChunksCacheEntry) (k : Nat) :
    Option PartialEncodedChunkPart :=
  match o with
  | some e0 => olookup e0.parts k
  | none => none

def entryReceiptAt (o : Option EncodedChunksCacheEntry) (s : Nat) :
    Option ReceiptProof :=
  match o with
  | some e0 => olookup e0.receipts s
  | none => none

/-- Cache-level first-write-wins: after a run of merges from an arbitrary
start state, each stored part is the part already present at the start, or
else the first accepted part with that ordinal; likewise for receipts. -/
theorem runMerges_char (ps : List PartialEncodedChunk) :
    ∀ c ch e, olookup (runMerges ps c).encoded_chunks ch = some e →
      (∀ k, olookup e.parts k =
          firstOr (entryPartAt (olookup c.encoded_chunks ch) k)
            ((acceptedParts ch ps c).find? (fun pi => pi.part_ord == k))) ∧
      (∀ s, olookup e.receipts s =
          firstOr (entryReceiptAt (olookup c.encoded_chunks ch) s)
            ((acceptedReceipts ch ps c).find? (fun r => r.to_shard_id == s))) := by
  induction ps with
  | nil =>
    intro c ch e hm
    rw [runMerges] at hm
    refine ⟨fun k => ?_, fun s => ?_⟩
    · rw [acceptedParts, List.find?, firstOr_none_right, hm, entryPartAt]
    · rw [acceptedReceipts, List.find?, firstOr_none_right, hm, entryReceiptAt]
  | cons p rest ih =>
    intro c ch e hm
    rw [runMerges] at hm
    have main := ih (mergeInPartialEncodedChunk c p).1 ch e hm
    by_cases hb : (mergeInPartialEncodedChunk c p).2 = true
    · by_cases hh : p.chunk_hash = ch
      · subst hh
        cases hm0 : olookup c.encoded_chunks p.chunk_hash with
        | some e0 =>
          have hself := mergeIn_ec_self_some c p e0 hm0
          refine ⟨fun k => ?_, fun s => ?_⟩
          · have h1 := main.1 k
            rw [hself, entryPartAt] at h1
            have h2 : olookup (entryMerge e0 p).parts k =
                firstOr (olookup e0.parts k)
                  (p.parts.find? (fun pi => pi.part_ord == k)) := by
              rw [entryMerge]
              exact mergeParts_char p.parts e0.parts k
            rw [h2] at h1
            rw [acceptedParts, if_pos ⟨hb, rfl⟩, find?_append_firstOr, ← firstOr_assoc]
            exact h1
          · have h1 := main.2 s
            rw [hself, entryReceiptAt] at h1
            have h2 : olookup (entryMerge e0 p).receipts s =
                firstOr (olookup e0.receipts s)
                  (p.receipts.find? (fun r => r.to_shard_id == s)) := by
              rw [entryMerge]
              exact mergeReceipts_char p.receipts e0.receipts s
            rw [h2] at h1
            rw [acceptedReceipts, if_pos ⟨hb, rfl⟩, find?_append_firstOr, ← firstOr_assoc]
            exact h1
        | none =>
          have hhd : ∃ hd, p.header = some hd := by
            cases hph : p.header with
            | some hd => exact ⟨hd, rfl⟩
            | none =>
              exfalso
              rw [mergeInPartialEncodedChunk, hm0, hph] at hb
              exact absurd hb (by simp)
          obtain ⟨hd, hph⟩ := hhd
          have hself := mergeIn_ec_self_new c p hd hm0 hph
          refine ⟨fun k => ?_, fun s => ?_⟩
          · have h1 := main.1 k
            rw [hself, entryPartAt] at h1
            have h2 : olookup (entryMerge (entryFromChunkHeader hd) p).parts k =
                p.parts.find? (fun pi => pi.part_ord == k) := by
              rw [entryMerge]
              rw [mergeParts_char p.parts _ k]
              rfl
            rw [h2] at h1
            rw [acceptedParts, if_pos ⟨hb, rfl⟩, find?_append_firstOr]
            exact h1
          · have h1 := main.2 s
            rw [hself, entryReceiptAt] at h1
            have h2 : olookup (entryMerge (entryFromChunkHeader hd) p).receipts s =
                p.receipts.find? (fun r => r.to_shard_id == s) := by
              rw [entryMerge]
              rw [mergeReceipts_char p.receipts _ s]
              rfl
            rw [h2] at h1
            rw [acceptedReceipts, if_pos ⟨hb, rfl⟩, find?_append_firstOr]
            exact h1
      · have hne := mergeIn_ec_ne c p ch (fun hEq => hh hEq.symm)
        refine ⟨fun k => ?_, fun s => ?_⟩
        · have h1 := main.1 k
          rw [hne] at h1
          rw [acceptedParts, if_neg (fun hand => hh hand.2), List.nil_append]
          exact h1
        · have h1 := main.2 s
          rw [hne] at h1
          rw [acceptedReceipts, if_neg (fun hand => hh hand.2), List.nil_append]
          exact h1
    · have hc := mergeIn_rejected c p (by simpa using hb)
      refine ⟨fun k => ?_, fun s => ?_⟩
      · have h1 := main.1 k
        rw [hc] at h1
        rw [acceptedParts, if_neg (fun hand => hb hand.1), List.nil_append, hc]
        exact h1
      · have h1 := main.2 s
        rw [hc] at h1
        rw [acceptedReceipts, if_neg (fun hand => hb hand.1), List.nil_append, hc]
        exact h1

/-- C6: a partial is accepted iff an entry already exists for its chunk hash
or it carries a header; and after any run of merges from the empty cache,
the part stored under ordinal `k` is the first accepted part with that
ordinal (parts are never overwritten), and the receipt stored under shard
`s` is the first accepted receipt for that destination shard. -/
theorem mergeIn_accept_first_write_wins (c : EncodedChunksCache)
    (p : PartialEncodedChunk) (ps : List PartialEncodedChunk) (ch k s : Nat)
    (e : EncodedChunksCacheEntry)
    (hrun : olookup (runMerges ps cacheNew).encoded_chunks ch = some e) :
    (mergeInPartialEncodedChunk c p).2 =
      ((olookup c.encoded_chunks p.chunk_hash).isSome || p.header.isSome) ∧
    olookup e.parts k =
      (acceptedParts ch ps cacheNew).find? (fun pi => pi.part_ord == k) ∧
    olookup e.receipts s =
      (acceptedReceipts ch ps cacheNew).find? (fun r => r.to_shard_id == s) := by
  refine ⟨mergeIn_flag c p, ?_, ?_⟩
  · have h1 := (runMerges_char ps cacheNew ch e hrun).1 k
    simpa [cacheNew, olookup, entryPartAt, firstOr] using h1
  · have h1 := (runMerges_char ps cacheNew ch e hrun).2 s
    simpa [cacheNew, olookup, entryReceiptAt, firstOr] using h1

/-- A concrete partial: chunk hash 7, a header, two parts that share
ordinal 1, and one receipt for shard 2. -/
def pecW : PartialEncodedChunk :=
  ⟨7, some ⟨10, 0, 0⟩, [⟨1, 11⟩, ⟨1, 12⟩], [⟨2, 21⟩]⟩

/-- The entry stored for chunk 7 after merging `pecW` into an empty cache:
the first part with ordinal 1 won. -/
def entryW : EncodedChunksCacheEntry :=
  ⟨⟨10, 0, 0⟩, [(1, ⟨1, 11⟩)], [(2, ⟨2, 21⟩)]⟩

theorem mergeIn_accept_first_write_wins_witness :
    (mergeInPartialEncodedChunk cacheNew pecW).2 =
      ((olookup cacheNew.encoded_chunks pecW.chunk_hash).isSome || pecW.header.isSome) ∧
    olookup entryW.parts 1 =
      (acceptedParts 7 [pecW] cacheNew).find? (fun pi => pi.part_ord == 1) ∧
    olookup entryW.receipts 2 =
      (acceptedReceipts 7 [pecW] cacheNew).find? (fun r => r.to_shard_id == 2) :=
  mergeIn_accept_first_write_wins cacheNew pecW [pecW] 7 1 2 entryW (by decide)

/-! ## Validator manager (near/src/validator_manager.rs)

`ValidatorStake.public_key` is carried around but never inspected, so it is
an opaque `Nat`.  `validator_kickout_threshold` is an `f64` in Rust; it is
modelled as a rational - every comparison the verified claims rely on
involves exactly representable values.  Balances are `Nat` (`u128` overflow
is out of scope for these claims). -/

structure ValidatorStake where
  account_id : Nat
  public_key : Nat
  amount : Nat
deriving DecidableEq

structure ValidatorEpochConfig where
  epoch_length : Nat
  rng_seed : Nat
  num_shards : Nat
  num_block_producers : Nat
  block_producers_per_shard : List Nat
  avg_fisherman_per_shard : List Nat
  validator_kickout_threshold : Rat
deriving DecidableEq

structure ValidatorAssignment where
  validators : List ValidatorStake
  validator_to_index : List (Nat × Nat)
  block_producers : List Nat
  chunk_producers : List (List Nat)
  fishermen : List (Nat × Nat)
  expected_epoch_start : Nat
  stake_change : List (Nat × Nat)
deriving DecidableEq

/-- `ValidatorAssignment::default()`. -/
def defaultAssignment : ValidatorAssignment := ⟨[], [], [], [], [], 0, []⟩

inductive VError where
  | thresholdError (stakesSum : Nat) (numSeats : Nat)
  | epochOutOfBounds
  | selectedSeatsMismatch (selected : Nat) (required : Nat)
  | missingBlock (h : Nat)
  | otherErr
  | nonTermination
  | fatal
deriving DecidableEq

/-- First loop of `proposals_to_assignments` (validator_manager.rs:118):
kicked proposals are recorded as `(0, amount)`, the rest enter
`ordered_proposals` (last proposal wins). -/
def phaseAProposals (ko : List (Nat × Bool)) :
    List ValidatorStake → List (Nat × ValidatorStake) × List (Nat × Nat × Nat) →
    List (Nat × ValidatorStake) × List (Nat × Nat × Nat)
  | [], st => st
  | p :: rest, (op, sc) =>
    if (olookup ko p.account_id).getD false then
      phaseAProposals ko rest (op, oinsert sc p.account_id (0, p.amount))
    else
      phaseAProposals ko rest (oinsert op p.account_id p, sc)

/-- Second loop of `proposals_to_assignments` (validator_manager.rs:127):
roll prior validators forward, or return their stake. -/
def phaseAValidators (ko : List (Nat × Bool)) :
    List ValidatorStake → List (Nat × ValidatorStake) × List (Nat × Nat × Nat) →
    List (Nat × ValidatorStake) × List (Nat × Nat × Nat)
  | [], st => st
  | r :: rest, (op, sc) =>
    match olookup op r.account_id with
    | some p =>
      phaseAValidators ko rest
        (op, oinsert sc r.account_id
          (p.amount, if p.amount < r.amount then r.amount - p.amount else 0))
    | none =>
      if (olookup ko r.account_id).getD true then
        phaseAValidators ko rest (op, oinsert sc r.account_id (0, r.amount))
      else
        phaseAValidators ko rest (oinsert op r.account_id r, sc)

/-- The below-threshold filter of `proposals_to_assignments`
(validator_manager.rs:150). -/
def phaseC (threshold : Nat) :
    List (Nat × ValidatorStake) →
    List (Nat × ValidatorStake) × List (Nat × Nat × Nat) →
    List (Nat × ValidatorStake) × List (Nat × Nat × Nat)
  | [], st => st
  | (acc, p) :: rest, (fp, sc) =>
    if threshold ≤ p.amount then
      phaseC threshold rest (oinsert fp acc p,
        if (olookup sc p.account_id).isSome then sc
        else oinsert sc p.account_id (p.amount, 0))
    else
      phaseC threshold rest (fp,
        match olookup sc p.account_id with
        | some nr => if nr.1 ≠ 0 then oinsert sc p.account_id (0, nr.2 + nr.1) else sc
        | none => oinsert sc p.account_id (0, p.amount))

/-- Phases A-C of `proposals_to_assignments`: merge proposals with
rollovers, compute the threshold, filter.  Returns the threshold, the
surviving proposals (sorted by account) and the transient
`(new_stake, returned_stake)` bookkeeping. -/
def stakeInfo (cfg : ValidatorEpochConfig) (cur : ValidatorAssignment)
    (proposals : List ValidatorStake) (ko : List (Nat × Bool)) :
    Except VError (Nat × List (Nat × ValidatorStake) × List (Nat × Nat × Nat)) :=
  let st1 := phaseAProposals ko proposals ([], [])
  let st2 := phaseAValidators ko cur.validators st1
  let numSeats := cfg.num_block_producers + cfg.avg_fisherman_per_shard.sum
  let stakes := st2.1.map (fun e => e.2.amount)
  match findThreshold stakes numSeats with
  | .error e => .error (.thresholdError e.1 e.2)
  | .ok none => .error .nonTermination
  | .ok (some threshold) =>
    let st3 := phaseC threshold st2.1 ([], st2.2)
    .ok (threshold, st3.1, st3.2)

/-- The transient stake-change bookkeeping of a `proposals_to_assignments`
run (empty when the run fails before producing it). -/
def transientStakeChange (cfg : ValidatorEpochConfig) (cur : ValidatorAssignment)
    (proposals : List ValidatorStake) (ko : List (Nat × Bool)) :
    List (Nat × Nat × Nat) :=
  match stakeInfo cfg cur proposals ko with
  | .ok tfs => tfs.2.2
  | .error _ => []

/-- `dup_proposals` (validator_manager.rs:180): each survivor repeated once
per seat it can pay for. -/
def dupProposals (threshold : Nat) (fps : List ValidatorStake) : List Nat :=
  ((fps.enum).map (fun e => List.replicate (e.2.amount / threshold) e.1)).flatten

def optMapList {α : Type} (f : Nat → Option α) : List Nat → Option (List α)
  | [] => some []
  | x :: xs =>
    match f x, optMapList f xs with
    | some y, some ys => some (y :: ys)
    | _, _ => none

/-- The inner loop assigning one shard's chunk-producer seats
(validator_manager.rs:200): seat `i` reads
`dup_proposals[(i + last_index) % num_block_producers]`; `none` models the
out-of-bounds panic. -/
def buildCP (dup : List Nat) (numBP last seats : Nat) : Option (List Nat) :=
  optMapList (fun i => dup.get? ((i + last) % numBP)) (List.range seats)

/-- The shard loop building `chunk_producers` (validator_manager.rs:197).
`.fatal` models the `% 0` panic when `num_block_producers = 0` and the
out-of-bounds indexing panic. -/
def chunkProducersLoop (dup : List Nat) (numBP : Nat) :
    List Nat → Nat → Except VError (List (List Nat))
  | [], _ => .ok []
  | seats :: rest, last =>
    if numBP = 0 then .error .fatal
    else
      match buildCP dup numBP last seats with
      | none => .error .fatal
      | some cp =>
        match chunkProducersLoop dup numBP rest ((last + seats) % numBP) with
        | .ok cps => .ok (cp :: cps)
        | .error e => .error e

/-- `proposals_to_assignments` (validator_manager.rs:109).  The shuffle of
`dup_proposals` is done by `rand::StdRng` seeded from the config - code of
the external `rand` crate, not of this repository - so the permutation it
applies is a parameter `shuffle`; the theorems below hold for every
length-preserving `shuffle`, which a Fisher-Yates shuffle is. -/
def proposalsToAssignments (shuffle : List Nat → List Nat)
    (cfg : ValidatorEpochConfig) (cur : ValidatorAssignment)
    (proposals : List ValidatorStake) (ko : List (Nat × Bool)) :
    Except VError ValidatorAssignment :=
  match stakeInfo cfg cur proposals ko with
  | .error e => .error e
  | .ok (threshold, fp, sc) =>
    let finalProposals := fp.map (fun e => e.2)
    let validatorToIndex := (fp.enum).map (fun e => (e.2.1, e.1))
    let numSeats := cfg.num_block_producers + cfg.avg_fisherman_per_shard.sum
    let dup := dupProposals threshold finalProposals
    if dup.length < numSeats then
      .error (.selectedSeatsMismatch dup.length numSeats)
    else
      let shuffled := shuffle dup
      let blockProducers := shuffled.take cfg.num_block_producers
      match chunkProducersLoop shuffled cfg.num_block_producers
          cfg.block_producers_per_shard 0 with
      | .error e => .error e
      | .ok chunkProducers =>
        let ees :=
          if cur.expected_epoch_start = 0 ∧ cur.validators = [] then 0
          else cur.expected_epoch_start + 2 * cfg.epoch_length
        .ok ⟨finalProposals, validatorToIndex, blockProducers, chunkProducers, [],
             ees, sc.map (fun e => (e.1, e.2.1))⟩

def sumAmounts (l : List ValidatorStake) : Nat := (l.map (fun v => v.amount)).sum

def sumStakeChange (sc : List (Nat × Nat × Nat)) : Nat :=
  (sc.map (fun e => e.2.1 + e.2.2)).sum

def sumOrderedAmounts (op : List (Nat × ValidatorStake)) : Nat :=
  (op.map (fun e => e.2.amount)).sum

/-- Invariant carried through phases A-C: `ordered_proposals` is key-sorted,
each entry is keyed by its own account id, and no ordered-proposal account
has a `stake_change` record yet. -/
def OPInv (op : List (Nat × ValidatorStake)) (sc : List (Nat × Nat × Nat)) : Prop :=
  op.Pairwise (fun x y => x.1 < y.1) ∧
  (∀ e ∈ op, e.1 = e.2.account_id) ∧
  (∀ e ∈ op, olookup sc e.2.account_id = none)

theorem phaseAProposals_spec (ko : List (Nat × Bool)) (props : List ValidatorStake) :
    ∀ op sc,
      OPInv op sc →
      (∀ p ∈ props, olookup op p.account_id = none ∧ olookup sc p.account_id = none) →
      (props.map (fun p => p.account_id)).Nodup →
      OPInv (phaseAProposals ko props (op, sc)).1 (phaseAProposals ko props (op, sc)).2 ∧
      sumOrderedAmounts (phaseAProposals ko props (op, sc)).1 +
          sumStakeChange (phaseAProposals ko props (op, sc)).2 =
        sumOrderedAmounts op + sumStakeChange sc + sumAmounts props ∧
      ∀ a, (∀ p ∈ props, p.account_id ≠ a) →
        olookup (phaseAProposals ko props (op, sc)).1 a = olookup op a ∧
        olookup (phaseAProposals ko props (op, sc)).2 a = olookup sc a := by
  induction props with
  | nil =>
    intro op sc hinv _ _
    exact ⟨hinv, by simp [phaseAProposals, sumAmounts], fun a _ => ⟨rfl, rfl⟩⟩
  | cons p rest ih =>
    intro op sc hinv hfresh hnd
    obtain ⟨hp1, hp2⟩ := hfresh p (List.mem_cons_self _ _)
    rw [List.map_cons, List.nodup_cons] at hnd
    obtain ⟨hpnotin, hndrest⟩ := hnd
    rw [phaseAProposals]
    by_cases hkick : (olookup ko p.account_id).getD false
    · rw [if_pos hkick]
      have hinv2 : OPInv op (oinsert sc p.account_id (0, p.amount)) := by
        obtain ⟨ha, hb, hc⟩ := hinv
        refine ⟨ha, hb, fun e he => ?_⟩
        have hne : e.2.account_id ≠ p.account_id := by
          intro hEq
          have hmem : (e.1, e.2) ∈ op := by simpa using he
          have hlk := mem_imp_olookup op ha e.1 e.2 hmem
          rw [hb e he, hEq, hp1] at hlk
          exact Option.noConfusion hlk
        rw [olookup_oinsert_ne _ _ _ _ hne]
        exact hc e he
      have hfresh2 : ∀ q ∈ rest, olookup op q.account_id = none ∧
          olookup (oinsert sc p.account_id (0, p.amount)) q.account_id = none := by
        intro q hq
        obtain ⟨hq1, hq2⟩ := hfresh q (List.mem_cons_of_mem _ hq)
        have hne : q.account_id ≠ p.account_id := fun hEq =>
          hpnotin (hEq ▸ List.mem_map_of_mem _ hq)
        exact ⟨hq1, by rw [olookup_oinsert_ne _ _ _ _ hne]; exact hq2⟩
      obtain ⟨hI, hS, hT⟩ := ih op _ hinv2 hfresh2 hndrest
      refine ⟨hI, ?_, ?_⟩
      · have hsum := sum_map_oinsert (fun e => e.2.1 + e.2.2) sc p.account_id (0, p.amount) hp2
        simp only [sumStakeChange, sumOrderedAmounts, sumAmounts, List.map_cons,
          List.sum_cons] at hS hsum ⊢
        omega
      · intro a ha
        obtain ⟨t1, t2⟩ := hT a (fun q hq => ha q (List.mem_cons_of_mem _ hq))
        have hne : a ≠ p.account_id := Ne.symm (ha p (List.mem_cons_self _ _))
        exact ⟨t1, by rw [t2, olookup_oinsert_ne _ _ _ _ hne]⟩
    · rw [if_neg hkick]
      have hinv2 : OPInv (oinsert op p.account_id p) sc := by
        obtain ⟨ha, hb, hc⟩ := hinv
        refine ⟨pairwise_oinsert op _ _ ha, ?_, ?_⟩
        · intro e he
          rcases mem_oinsert op _ _ e he with h' | h'
          · rw [h']
          · exact hb e h'
        · intro e he
          rcases mem_oinsert op _ _ e he with h' | h'
          · rw [h']; exact hp2
          · exact hc e h'
      have hfresh2 : ∀ q ∈ rest, olookup (oinsert op p.account_id p) q.account_id = none ∧
          olookup sc q.account_id = none := by
        intro q hq
        obtain ⟨hq1, hq2⟩ := hfresh q (List.mem_cons_of_mem _ hq)
        have hne : q.account_id ≠ p.account_id := fun hEq =>
          hpnotin (hEq ▸ List.mem_map_of_mem _ hq)
        exact ⟨by rw [olookup_oinsert_ne _ _ _ _ hne]; exact hq1, hq2⟩
      obtain ⟨hI, hS, hT⟩ := ih _ sc hinv2 hfresh2 hndrest
      refine ⟨hI, ?_, ?_⟩
      · have hsum := sum_map_oinsert (fun e => e.2.amount) op p.account_id p hp1
        simp only [sumStakeChange, sumOrderedAmounts, sumAmounts, List.map_cons,
          List.sum_cons] at hS hsum ⊢
        omega
      · intro a ha
        obtain ⟨t1, t2⟩ := hT a (fun q hq => ha q (List.mem_cons_of_mem _ hq))
        have hne : a ≠ p.account_id := Ne.symm (ha p (List.mem_cons_self _ _))
        exact ⟨by rw [t1, olookup_oinsert_ne _ _ _ _ hne], t2⟩

theorem phaseAValidators_spec (ko : List (Nat × Bool)) (vals : List ValidatorStake) :
    ∀ op sc,
      OPInv op sc →
      (∀ r ∈ vals, olookup op r.account_id = none ∧ olookup sc r.account_id = none) →
      (vals.map (fun v => v.account_id)).Nodup →
      OPInv (phaseAValidators ko vals (op, sc)).1 (phaseAValidators ko vals (op, sc)).2 ∧
      sumOrderedAmounts (phaseAValidators ko vals (op, sc)).1 +
          sumStakeChange (phaseAValidators ko vals (op, sc)).2 =
        sumOrderedAmounts op + sumStakeChange sc + sumAmounts vals := by
  induction vals with
  | nil =>
    intro op sc hinv _ _
    exact ⟨hinv, by simp [phaseAValidators, sumAmounts]⟩
  | cons r rest ih =>
    intro op sc hinv hfresh hnd
    obtain ⟨hr1, hr2⟩ := hfresh r (List.mem_cons_self _ _)
    rw [List.map_cons, List.nodup_cons] at hnd
    obtain ⟨hrnotin, hndrest⟩ := hnd
    have hstep : phaseAValidators ko (r :: rest) (op, sc) =
        (if (olookup ko r.account_id).getD true then
          phaseAValidators ko rest (op, oinsert sc r.account_id (0, r.amount))
        else phaseAValidators ko rest (oinsert op r.account_id r, sc)) := by
      rw [phaseAValidators, hr1]
    rw [hstep]
    by_cases hkick : (olookup ko r.account_id).getD true
    · rw [if_pos hkick]
      have hinv2 : OPInv op (oinsert sc r.account_id (0, r.amount)) := by
        obtain ⟨ha, hb, hc⟩ := hinv
        refine ⟨ha, hb, fun e he => ?_⟩
        have hne : e.2.account_id ≠ r.account_id := by
          intro hEq
          have hmem : (e.1, e.2) ∈ op := by simpa using he
          have hlk := mem_imp_olookup op ha e.1 e.2 hmem
          rw [hb e he, hEq, hr1] at hlk
          exact Option.noConfusion hlk
        rw [olookup_oinsert_ne _ _ _ _ hne]
        exact hc e he
      have hfresh2 : ∀ q ∈ rest, olookup op q.account_id = none ∧
          olookup (oinsert sc r.account_id (0, r.amount)) q.account_id = none := by
        intro q hq
        obtain ⟨hq1, hq2⟩ := hfresh q (List.mem_cons_of_mem _ hq)
        have hne : q.account_id ≠ r.account_id := fun hEq =>
          hrnotin (hEq ▸ List.mem_map_of_mem _ hq)
        exact ⟨hq1, by rw [olookup_oinsert_ne _ _ _ _ hne]; exact hq2⟩
      obtain ⟨hI, hS⟩ := ih op _ hinv2 hfresh2 hndrest
      refine ⟨hI, ?_⟩
      have hsum := sum_map_oinsert (fun e => e.2.1 + e.2.2) sc r.account_id (0, r.amount) hr2
      simp only [sumStakeChange, sumOrderedAmounts, sumAmounts, List.map_cons,
        List.sum_cons] at hS hsum ⊢
      omega
    · rw [if_neg hkick]
      have hinv2 : OPInv (oinsert op r.account_id r) sc := by
        obtain ⟨ha, hb, hc⟩ := hinv
        refine ⟨pairwise_oinsert op _ _ ha, ?_, ?_⟩
        · intro e he
          rcases mem_oinsert op _ _ e he with h' | h'
          · rw [h']
          · exact hb e h'
        · intro e he
          rcases mem_oinsert op _ _ e he with h' | h'
          · rw [h']; exact hr2
          · exact hc e h'
      have hfresh2 : ∀ q ∈ rest, olookup (oinsert op r.account_id r) q.account_id = none ∧
          olookup sc q.account_id = none := by
        intro q hq
        obtain ⟨hq1, hq2⟩ := hfresh q (List.mem_cons_of_mem _ hq)
        have hne : q.account_id ≠ r.account_id := fun hEq =>
          hrnotin (hEq ▸ List.mem_map_of_mem _ hq)
        exact ⟨by rw [olookup_oinsert_ne _ _ _ _ hne]; exact hq1, hq2⟩
      obtain ⟨hI, hS⟩ := ih _ sc hinv2 hfresh2 hndrest
      refine ⟨hI, ?_⟩
      have hsum := sum_map_oinsert (fun e => e.2.amount) op r.account_id r hr1
      simp only [sumStakeChange, sumOrderedAmounts, sumAmounts, List.map_cons,
        List.sum_cons] at hS hsum ⊢
      omega

theorem phaseC_sum (threshold : Nat) (opl : List (Nat × ValidatorStake)) :
    ∀ fp sc,
      (∀ e ∈ opl, olookup sc e.2.account_id = none) →
      (opl.map (fun e => e.2.account_id)).Nodup →
      sumStakeChange (phaseC threshold opl (fp, sc)).2 =
        sumStakeChange sc + sumOrderedAmounts opl := by
  induction opl with
  | nil =>
    intro fp sc _ _
    simp [phaseC, sumOrderedAmounts]
  | cons e rest ih =>
    obtain ⟨acc, p⟩ := e
    intro fp sc hdisj hnd
    have hp : olookup sc p.account_id = none := hdisj (acc, p) (List.mem_cons_self _ _)
    rw [List.map_cons, List.nodup_cons] at hnd
    obtain ⟨hnotin, hndrest⟩ := hnd
    by_cases hth : threshold ≤ p.amount
    · have hstep : phaseC threshold ((acc, p) :: rest) (fp, sc) =
          phaseC threshold rest (oinsert fp acc p,
            oinsert sc p.account_id (p.amount, 0)) := by
        rw [phaseC, if_pos hth, hp]
        rfl
      rw [hstep]
      have hdisj2 : ∀ q ∈ rest,
          olookup (oinsert sc p.account_id (p.amount, 0)) q.2.account_id = none := by
        intro q hq
        have hne : q.2.account_id ≠ p.account_id := fun hEq =>
          hnotin (hEq ▸ List.mem_map_of_mem _ hq)
        rw [olookup_oinsert_ne _ _ _ _ hne]
        exact hdisj q (List.mem_cons_of_mem _ hq)
      rw [ih _ _ hdisj2 hndrest]
      have hsum := sum_map_oinsert (fun e => e.2.1 + e.2.2) sc p.account_id (p.amount, 0) hp
      simp only [sumStakeChange, sumOrderedAmounts, List.map_cons, List.sum_cons] at hsum ⊢
      omega
    · have hstep : phaseC threshold ((acc, p) :: rest) (fp, sc) =
          phaseC threshold rest (fp, oinsert sc p.account_id (0, p.amount)) := by
        rw [phaseC, if_neg hth, hp]
      rw [hstep]
      have hdisj2 : ∀ q ∈ rest,
          olookup (oinsert sc p.account_id (0, p.amount)) q.2.account_id = none := by
        intro q hq
        have hne : q.2.account_id ≠ p.account_id := fun hEq =>
          hnotin (hEq ▸ List.mem_map_of_mem _ hq)
        rw [olookup_oinsert_ne _ _ _ _ hne]
        exact hdisj q (List.mem_cons_of_mem _ hq)
      rw [ih _ _ hdisj2 hndrest]
      have hsum := sum_map_oinsert (fun e => e.2.1 + e.2.2) sc p.account_id (0, p.amount) hp
      simp only [sumStakeChange, sumOrderedAmounts, List.map_cons, List.sum_cons] at hsum ⊢
      omega

/-- C1 (amended): the conservation equation holds whenever `proposals_to_assignments`
succeeds AND the proposal accounts are pairwise distinct, the prior validator
accounts are pairwise distinct, and no account occurs in both lists.  The
`BTreeMap::insert` overwrites in phases A and C break the equation whenever
an account re-proposes while it is a prior validator (see the
counterexample), so the overlap-freedom hypotheses cannot be dropped. -/
theorem stake_conservation (shuffle : List Nat → List Nat)
    (cfg : ValidatorEpochConfig) (cur : ValidatorAssignment)
    (proposals : List ValidatorStake) (ko : List (Nat × Bool)) (a : ValidatorAssignment)
    (hok : proposalsToAssignments shuffle cfg cur proposals ko = .ok a)
    (hp : (proposals.map (fun p => p.account_id)).Nodup)
    (hv : (cur.validators.map (fun v => v.account_id)).Nodup)
    (hdisj : ∀ p ∈ proposals, ∀ r ∈ cur.validators, p.account_id ≠ r.account_id) :
    sumStakeChange (transientStakeChange cfg cur proposals ko) =
      sumAmounts cur.validators + sumAmounts proposals := by
  rcases hst1 : phaseAProposals ko proposals ([], []) with ⟨op1, sc1⟩
  have hbase : OPInv ([] : List (Nat × ValidatorStake)) ([] : List (Nat × Nat × Nat)) :=
    ⟨List.Pairwise.nil, by simp, by simp⟩
  obtain ⟨hI1, hS1, hT1⟩ :=
    phaseAProposals_spec ko proposals [] [] hbase (fun q _ => ⟨rfl, rfl⟩) hp
  rw [hst1] at hI1 hS1 hT1
  have hfresh2 : ∀ r ∈ cur.validators,
      olookup op1 r.account_id = none ∧ olookup sc1 r.account_id = none := by
    intro r hr
    have ht := hT1 r.account_id (fun q hq hEq => hdisj q hq r hr hEq)
    exact ⟨ht.1, ht.2⟩
  rcases hst2 : phaseAValidators ko cur.validators (op1, sc1) with ⟨op2, sc2⟩
  obtain ⟨hI2, hS2⟩ := phaseAValidators_spec ko cur.validators op1 sc1 hI1 hfresh2 hv
  rw [hst2] at hI2 hS2
  obtain ⟨hPW, hKA, hDJ⟩ := hI2
  have hndacc : (op2.map (fun e => e.2.account_id)).Nodup := by
    have hmeq : op2.map (fun e => e.2.account_id) = op2.map (fun e => e.1) :=
      List.map_congr_left (fun e he => (hKA e he).symm)
    rw [hmeq]
    exact (List.pairwise_map).mpr (hPW.imp (fun h => Nat.ne_of_lt h))
  cases hft : findThreshold (op2.map (fun e => e.2.amount))
      (cfg.num_block_producers + cfg.avg_fisherman_per_shard.sum) with
  | error e =>
    exfalso
    have hsi : stakeInfo cfg cur proposals ko = .error (.thresholdError e.1 e.2) := by
      simp only [stakeInfo, hst1, hst2]
      rw [hft]
    simp only [proposalsToAssignments, hsi] at hok
    exact Except.noConfusion hok
  | ok oT =>
    cases oT with
    | none =>
      exfalso
      have hsi : stakeInfo cfg cur proposals ko = .error .nonTermination := by
        simp only [stakeInfo, hst1, hst2]
        rw [hft]
      simp only [proposalsToAssignments, hsi] at hok
      exact Except.noConfusion hok
    | some t =>
      have hsi : stakeInfo cfg cur proposals ko =
          .ok (t, (phaseC t op2 ([], sc2)).1, (phaseC t op2 ([], sc2)).2) := by
        simp only [stakeInfo, hst1, hst2]
        rw [hft]
      have htr : transientStakeChange cfg cur proposals ko =
          (phaseC t op2 ([], sc2)).2 := by
        unfold transientStakeChange
        rw [hsi]
      rw [htr, phaseC_sum t op2 [] sc2 hDJ hndacc]
      simp only [sumOrderedAmounts, sumStakeChange, List.map_nil, List.sum_nil] at hS1 hS2 ⊢
      omega

def exceptIsOk {ε α : Type} : Except ε α → Bool
  | .ok _ => true
  | .error _ => false

/-- Config with one block-producer seat, one shard, no fishermen. -/
def cfgC1 : ValidatorEpochConfig := ⟨2, 0, 1, 1, [1], [0], 9 / 10⟩

/-- A prior assignment whose single validator has stake 10. -/
def priorC1 : ValidatorAssignment :=
  ⟨[⟨1, 0, 10⟩], [(1, 0)], [0], [[0]], [], 2, [(1, 10)]⟩

/-- C1 counterexample: account 1, a prior validator with stake 10,
re-proposes with stake 1,000,000.  The run succeeds, the transient stake
change holds a single entry `(1000000, 0)`, so the claimed conservation sum
1000000 differs from prior 10 + proposed 1000000. -/
theorem stake_conservation_counterexample :
    exceptIsOk (proposalsToAssignments id cfgC1 priorC1 [⟨1, 0, 1000000⟩] []) = true ∧
    sumStakeChange (transientStakeChange cfgC1 priorC1 [⟨1, 0, 1000000⟩] []) ≠
      sumAmounts priorC1.validators + sumAmounts [⟨1, 0, 1000000⟩] := by
  constructor
  · rfl
  · intro h
    rw [show sumStakeChange (transientStakeChange cfgC1 priorC1 [⟨1, 0, 1000000⟩] []) =
        1000000 from rfl] at h
    rw [show sumAmounts priorC1.validators + sumAmounts [⟨1, 0, 1000000⟩] =
        1000010 from rfl] at h
    exact absurd h (by decide)

/-- Concrete inputs on which the amended C1/C8/C9 theorems are witnessed. -/
def cfgW : ValidatorEpochConfig := ⟨2, 0, 1, 1, [1], [0], 9 / 10⟩

def priorW : ValidatorAssignment :=
  ⟨[⟨1, 0, 1000000⟩], [(1, 0)], [0], [[0]], [], 2, [(1, 1000000)]⟩

def propsW : List ValidatorStake := [⟨2, 0, 1000000⟩]

def koW : List (Nat × Bool) := [(1, false)]

/-- The assignment produced on the witness inputs. -/
def aW : ValidatorAssignment :=
  match proposalsToAssignments id cfgW priorW propsW koW with
  | .ok x => x
  | .error _ => defaultAssignment

theorem stake_conservation_witness :
    sumStakeChange (transientStakeChange cfgW priorW propsW koW) =
      sumAmounts priorW.validators + sumAmounts propsW :=
  stake_conservation id cfgW priorW propsW koW aW (by rfl)
    (by decide) (by decide) (by decide)

theorem optMapList_length {α : Type} (f : Nat → Option α) :
    ∀ l l2, optMapList f l = some l2 → l2.length = l.length := by
  intro l
  induction l with
  | nil =>
    intro l2 h
    rw [optMapList] at h
    cases h
    rfl
  | cons x xs ih =>
    intro l2 h
    rw [optMapList] at h
    cases hfx : f x with
    | none => rw [hfx] at h; exact Option.noConfusion h
    | some y =>
      rw [hfx] at h
      cases hrec : optMapList f xs with
      | none => rw [hrec] at h; exact Option.noConfusion h
      | some ys =>
        rw [hrec] at h
        cases h
        simp [ih ys hrec]

theorem buildCP_length (dup : List Nat) (numBP last seats : Nat) (cp : List Nat)
    (h : buildCP dup numBP last seats = some cp) : cp.length = seats := by
  have hl := optMapList_length _ _ _ h
  simpa using hl

theorem chunkProducersLoop_spec (dup : List Nat) (numBP : Nat) :
    ∀ bpps last cps, chunkProducersLoop dup numBP bpps last = .ok cps →
      cps.length = bpps.length ∧
      ∀ i cp seats, cps.get? i = some cp → bpps.get? i = some seats →
        cp.length = seats := by
  intro bpps
  induction bpps with
  | nil =>
    intro last cps h
    rw [chunkProducersLoop] at h
    cases h
    exact ⟨rfl, fun i cp seats h1 _ => by simp at h1⟩
  | cons seats0 rest ih =>
    intro last cps h
    rw [chunkProducersLoop] at h
    by_cases h0 : numBP = 0
    · rw [if_pos h0] at h
      exact Except.noConfusion h
    · rw [if_neg h0] at h
      cases hcp : buildCP dup numBP last seats0 with
      | none => rw [hcp] at h; exact Except.noConfusion h
      | some cp0 =>
        rw [hcp] at h
        cases hrec : chunkProducersLoop dup numBP rest ((last + seats0) % numBP) with
        | error e => rw [hrec] at h; exact Except.noConfusion h
        | ok cps0 =>
          rw [hrec] at h
          cases h
          obtain ⟨hlen, hget⟩ := ih _ cps0 hrec
          refine ⟨by simp [hlen], ?_⟩
          intro i cp seats h1 h2
          cases i with
          | zero =>
            rw [List.get?_cons_zero] at h1 h2
            cases h1
            cases h2
            exact buildCP_length dup numBP last seats0 cp0 hcp
          | succ n =>
            rw [List.get?_cons_succ] at h1 h2
            exact hget n cp seats h1 h2

/-- C8: a successful `proposals_to_assignments` produces exactly
`num_block_producers` block-producer seats, one chunk-producer list per
configured shard, and `block_producers_per_shard[s]` seats for shard `s`. -/
theorem seat_count_invariant (shuffle : List Nat → List Nat)
    (cfg : ValidatorEpochConfig) (cur : ValidatorAssignment)
    (proposals : List ValidatorStake) (ko : List (Nat × Bool)) (a : ValidatorAssignment)
    (hlen : ∀ l, (shuffle l).length = l.length)
    (hok : proposalsToAssignments shuffle cfg cur proposals ko = .ok a) :
    a.block_producers.length = cfg.num_block_producers ∧
    a.chunk_producers.length = cfg.block_producers_per_shard.length ∧
    ∀ i cp seats, a.chunk_producers.get? i = some cp →
      cfg.block_producers_per_shard.get? i = some seats → cp.length = seats := by
  cases hsi : stakeInfo cfg cur proposals ko with
  | error e =>
    exfalso
    simp only [proposalsToAssignments, hsi] at hok
    exact Except.noConfusion hok
  | ok tfs =>
    obtain ⟨t, fp, sc⟩ := tfs
    simp only [proposalsToAssignments, hsi] at hok
    split at hok
    · exact Except.noConfusion hok
    · split at hok
      · exact Except.noConfusion hok
      · rename_i hguard cps heq
        cases hok
        obtain ⟨h1, h2⟩ := chunkProducersLoop_spec _ _ _ _ _ heq
        refine ⟨?_, h1, h2⟩
        simp only [List.length_take, hlen]
        omega

/-- C9 (amended): the produced `expected_epoch_start` is 0 exactly when the
prior assignment has `expected_epoch_start = 0` and an empty validator list
(the code tests those two fields, not equality with the full default
assignment), and `prev + 2 * epoch_length` otherwise. -/
theorem expected_epoch_start_formula (shuffle : List Nat → List Nat)
    (cfg : ValidatorEpochConfig) (cur : ValidatorAssignment)
    (proposals : List ValidatorStake) (ko : List (Nat × Bool)) (a : ValidatorAssignment)
    (hok : proposalsToAssignments shuffle cfg cur proposals ko = .ok a) :
    a.expected_epoch_start =
      if cur.expected_epoch_start = 0 ∧ cur.validators = [] then 0
      else cur.expected_epoch_start + 2 * cfg.epoch_length := by
  cases hsi : stakeInfo cfg cur proposals ko with
  | error e =>
    exfalso
    simp only [proposalsToAssignments, hsi] at hok
    exact Except.noConfusion hok
  | ok tfs =>
    obtain ⟨t, fp, sc⟩ := tfs
    simp only [proposalsToAssignments, hsi] at hok
    split at hok
    · exact Except.noConfusion hok
    · split at hok
      · exact Except.noConfusion hok
      · cases hok
        rfl

theorem seat_count_invariant_witness :
    aW.block_producers.length = cfgW.num_block_producers ∧
    aW.chunk_producers.length = cfgW.block_producers_per_shard.length ∧
    ∀ i cp seats, aW.chunk_producers.get? i = some cp →
      cfgW.block_producers_per_shard.get? i = some seats → cp.length = seats :=
  seat_count_invariant id cfgW priorW propsW koW aW (fun _ => rfl) (by rfl)

theorem expected_epoch_start_formula_witness :
    aW.expected_epoch_start =
      if priorW.expected_epoch_start = 0 ∧ priorW.validators = [] then 0
      else priorW.expected_epoch_start + 2 * cfgW.epoch_length :=
  expected_epoch_start_formula id cfgW priorW propsW koW aW (by rfl)

def eesOf (r : Except VError ValidatorAssignment) : Option Nat :=
  match r with
  | .ok a => some a.expected_epoch_start
  | .error _ => none

/-- Config with epoch length 1 used in the C9 counterexample. -/
def cfgC9 : ValidatorEpochConfig := ⟨1, 0, 1, 1, [1], [0], 9 / 10⟩

/-- A prior assignment that is NOT the empty default (its stake_change is
non-empty) but has `expected_epoch_start = 0` and no validators. -/
def priorC9 : ValidatorAssignment := ⟨[], [], [], [], [], 0, [(1, 5)]⟩

/-- C9 counterexample: on a prior assignment different from the empty
default, the code still produces `expected_epoch_start = 0` (it only tests
`expected_epoch_start = 0` and emptiness of `validators`), while the claim
demands `prev.expected_epoch_start + 2 * epoch_length = 2`. -/
theorem expected_epoch_start_counterexample :
    eesOf (proposalsToAssignments id cfgC9 priorC9 [⟨2, 0, 1000000⟩] []) = some 0 ∧
    priorC9 ≠ defaultAssignment ∧
    priorC9.expected_epoch_start + 2 * cfgC9.epoch_length = 2 := by
  refine ⟨rfl, by decide, rfl⟩

/-! ## `get_epoch_offset` (validator_manager.rs:398) and producer lookup -/

structure ValidatorIndexInfo where
  index : Nat
  prev_hash : Nat
  epoch_start_hash : Nat
  proposals : List ValidatorStake
  validator_mask : List Bool
deriving DecidableEq

/-- The epoch-start resolution of `get_epoch_offset`: the pair
`(epoch_start_index, epoch_start_parent_hash)` for the parent block. -/
def epochStartOf (m : List (Nat × ValidatorIndexInfo)) (parentHash : Nat)
    (pInfo : ValidatorIndexInfo) : Option (Nat × Nat) :=
  if parentHash = pInfo.epoch_start_hash then some (pInfo.index, pInfo.prev_hash)
  else (olookup m pInfo.epoch_start_hash).map (fun esi => (esi.index, esi.prev_hash))

/-- `get_epoch_offset` (validator_manager.rs:398).  `m` is the
`COL_PROPOSALS` column (block hash → `ValidatorIndexInfo`); the pre-genesis
sentinel hash is `0`. -/
def getEpochOffset (m : List (Nat × ValidatorIndexInfo)) (epochLength : Nat)
    (parentHash index : Nat) : Except VError (Nat × Nat) :=
  if parentHash = 0 then .ok (parentHash, 0)
  else
    match olookup m parentHash with
    | none => .error (.missingBlock parentHash)
    | some pInfo =>
      match epochStartOf m parentHash pInfo with
      | none => .error (.missingBlock pInfo.epoch_start_hash)
      | some es =>
        if es.1 + epochLength ≤ pInfo.index then .ok (pInfo.epoch_start_hash, 0)
        else
          match olookup m es.2 with
          | none => .error (.missingBlock es.2)
          | some prevEpochInfo =>
            .ok (prevEpochInfo.epoch_start_hash, if index = 0 then 0 else index - es.1)

/-- C5: `get_epoch_offset` returns `(sentinel, 0)` on the pre-genesis
sentinel parent; otherwise, with `esIdx` the index of the parent's
epoch-start block and `esPar` the hash of the block preceding it, it returns
`(parent.epoch_start_hash, 0)` when `esIdx + epoch_length ≤ parent.index`,
and `(info(esPar).epoch_start_hash, if index = 0 then 0 else index − esIdx)`
otherwise.  The last clause assumes `index = 0 ∨ esIdx ≤ index` so that the
`u64` subtraction is meaningful. -/
theorem getEpochOffset_correct (m : List (Nat × ValidatorIndexInfo))
    (epochLength parentHash index : Nat) (pInfo : ValidatorIndexInfo)
    (esIdx esPar : Nat)
    (hph : parentHash ≠ 0)
    (hpi : olookup m parentHash = some pInfo)
    (hes : epochStartOf m parentHash pInfo = some (esIdx, esPar)) :
    (∀ i2, getEpochOffset m epochLength 0 i2 = .ok (0, 0)) ∧
    (esIdx + epochLength ≤ pInfo.index →
      getEpochOffset m epochLength parentHash index =
        .ok (pInfo.epoch_start_hash, 0)) ∧
    (¬ esIdx + epochLength ≤ pInfo.index →
      ∀ pei, olookup m esPar = some pei → (index = 0 ∨ esIdx ≤ index) →
        getEpochOffset m epochLength parentHash index =
          .ok (pei.epoch_start_hash, if index = 0 then 0 else index - esIdx)) := by
  refine ⟨?_, ?_, ?_⟩
  · intro i2
    rw [getEpochOffset, if_pos rfl]
  · intro hle
    rw [getEpochOffset, if_neg hph]
    simp only [hpi, hes]
    rw [if_pos hle]
  · intro hgt pei hpei _
    rw [getEpochOffset, if_neg hph]
    simp only [hpi, hes]
    rw [if_neg hgt]
    simp only [hpei]

/-- Pre-genesis index info. -/
def infoW0 : ValidatorIndexInfo := ⟨0, 0, 0, [], []⟩

/-- Genesis block (hash 1, index 0, its own epoch start). -/
def infoW1 : ValidatorIndexInfo := ⟨0, 0, 1, [], []⟩

/-- Block at hash 2, index 1, in the genesis epoch. -/
def infoW2 : ValidatorIndexInfo := ⟨1, 1, 1, [], []⟩

def storeW : List (Nat × ValidatorIndexInfo) := [(0, infoW0), (1, infoW1), (2, infoW2)]

theorem getEpochOffset_correct_witness :
    getEpochOffset storeW 2 0 5 = .ok (0, 0) ∧
    getEpochOffset storeW 2 2 2 = .ok (0, 2) := by
  have h := getEpochOffset_correct storeW 2 2 2 infoW2 0 0 (by decide) (by rfl) (by rfl)
  refine ⟨h.1 5, ?_⟩
  have h3 := h.2.2 (by decide) infoW0 (by rfl) (Or.inr (by decide))
  simpa [infoW0] using h3

/-- `get_block_proposer_info` (validator_manager.rs:680).  `vmap` is the
`COL_VALIDATORS` column combined with the in-memory cache (epoch hash →
assignment); an unknown epoch hash yields `EpochOutOfBounds`, and `.fatal`
models the `% 0` and out-of-bounds indexing panics. -/
def getBlockProposerInfo (vmap : List (Nat × ValidatorAssignment))
    (epochHash height : Nat) : Except VError ValidatorStake :=
  match olookup vmap epochHash with
  | none => .error .epochOutOfBounds
  | some va =>
    if height < va.expected_epoch_start then .error .epochOutOfBounds
    else
      if va.block_producers.length = 0 then .error .fatal
      else
        match va.block_producers.get?
            ((height - va.expected_epoch_start) % va.block_producers.length) with
        | none => .error .fatal
        | some vid =>
          match va.validators.get? vid with
          | none => .error .fatal
          | some v => .ok v

/-- C7: for a finalized assignment `va` stored under `epochHash`,
`get_block_proposer_info` fails with `EpochOutOfBounds` when
`height < expected_epoch_start`, and otherwise returns
`validators[block_producers[(height − expected_epoch_start) mod
|block_producers|]]`. -/
theorem getBlockProposerInfo_correct (vmap : List (Nat × ValidatorAssignment))
    (epochHash height : Nat) (va : ValidatorAssignment) (vid : Nat) (v : ValidatorStake)
    (hva : olookup vmap epochHash = some va)
    (hbp : va.block_producers.get?
      ((height - va.expected_epoch_start) % va.block_producers.length) = some vid)
    (hv : va.validators.get? vid = some v) :
    (height < va.expected_epoch_start →
      getBlockProposerInfo vmap epochHash height = .error .epochOutOfBounds) ∧
    (¬ height < va.expected_epoch_start →
      getBlockProposerInfo vmap epochHash height = .ok v) := by
  have hlen : ¬ va.block_producers.length = 0 := by
    intro h0
    rw [h0] at hbp
    rcases List.get?_eq_some.mp hbp with ⟨hidx, _⟩
    rw [List.length_eq_zero.mp h0] at hidx
    simp at hidx
  constructor
  · intro hlt
    rw [getBlockProposerInfo.eq_def]
    simp only [hva]
    rw [if_pos hlt]
  · intro hge
    rw [getBlockProposerInfo.eq_def]
    simp only [hva]
    rw [if_neg hge, if_neg hlen]
    simp only [hbp, hv]

/-- The assignment used to witness the producer-lookup law. -/
def assignW : ValidatorAssignment :=
  ⟨[⟨1, 0, 50⟩, ⟨2, 0, 60⟩], [(1, 0), (2, 1)], [1, 0], [[1, 0]], [], 10,
    [(1, 50), (2, 60)]⟩

theorem getBlockProposerInfo_correct_witness :
    (13 < assignW.expected_epoch_start →
      getBlockProposerInfo [(3, assignW)] 3 13 = .error .epochOutOfBounds) ∧
    (¬ 13 < assignW.expected_epoch_start →
      getBlockProposerInfo [(3, assignW)] 3 13 = .ok ⟨1, 0, 50⟩) :=
  getBlockProposerInfo_correct [(3, assignW)] 3 13 assignW 0 ⟨1, 0, 50⟩
    (by rfl) (by rfl) (by rfl)

/-! ## The kickout loop of `finalize_epoch` (validator_manager.rs:556-587)

The loop iterates a Rust `HashMap` (`validator_tracker`), whose iteration
order is unspecified; the embedding therefore takes the tracker as the list
of its entries in iteration order.  The `f64` ratios are modelled as exact
rationals; every comparison used in the verified statements involves values
on which the two agree. -/

structure KState where
  ko : List (Nat × Bool)
  allk : Bool
  maxr : Rat
  maxa : Option Nat
deriving DecidableEq

/-- One iteration of the kickout loop, on entry `en = (validator_id,
blocks_produced)`.  `none` models the `unwrap`/indexing panics when the id
has no expected-block count or no validator entry. -/
def koStep (vals : List ValidatorStake) (kt : Rat) (expected : List (Nat × Nat))
    (st : KState) (en : Nat × Nat) : Option KState :=
  match olookup expected en.1, vals.get? en.1 with
  | some e, some stk =>
    if (en.2 : Rat) / (e : Rat) < kt then
      some ⟨oinsert st.ko stk.account_id true, st.allk,
        if st.maxr < (en.2 : Rat) / (e : Rat) then (en.2 : Rat) / (e : Rat) else st.maxr,
        if st.maxr < (en.2 : Rat) / (e : Rat) then some en.1 else st.maxa⟩
    else
      if (olookup st.ko stk.account_id).isSome then
        some ⟨st.ko, st.allk,
          if st.maxr < 0 then 0 else st.maxr,
          if st.maxr < 0 then some en.1 else st.maxa⟩
      else
        some ⟨oinsert st.ko stk.account_id false, false,
          if st.maxr < (en.2 : Rat) / (e : Rat) then (en.2 : Rat) / (e : Rat) else st.maxr,
          if st.maxr < (en.2 : Rat) / (e : Rat) then some en.1 else st.maxa⟩
  | _, _ => none

def koFold (vals : List ValidatorStake) (kt : Rat) (expected : List (Nat × Nat)) :
    List (Nat × Nat) → KState → Option KState
  | [], st => some st
  | en :: rest, st =>
    match koStep vals kt expected st en with
    | some st2 => koFold vals kt expected rest st2
    | none => none

/-- The kickout computation of `finalize_epoch` (validator_manager.rs:556):
fold the tracker in iteration order starting from the zero-stake markers
`ko0`, then apply the all-kicked-out rescue. -/
def computeKickout (vals : List ValidatorStake) (kt : Rat)
    (expected : List (Nat × Nat)) (tracker : List (Nat × Nat))
    (ko0 : List (Nat × Bool)) : Option (List (Nat × Bool)) :=
  match koFold vals kt expected tracker ⟨ko0, true, 0, none⟩ with
  | none => none
  | some st =>
    if st.allk then
      match st.maxa with
      | some i =>
        match vals.get? i with
        | some stk => some (oinsert st.ko stk.account_id false)
        | none => none
      | none => some st.ko
    else some st.ko

/-- The adjusted rate of a tracker entry: `produced / expected`, except that
an at-or-above-threshold validator whose account already carries a marker
counts as 0 (mirroring the `cur_ratio = 0.0` reset). -/
def effRate (vals : List ValidatorStake) (kt : Rat) (expected : List (Nat × Nat))
    (ko0 : List (Nat × Bool)) (en : Nat × Nat) : Rat :=
  match olookup expected en.1, vals.get? en.1 with
  | some e, some stk =>
    if (en.2 : Rat) / (e : Rat) < kt then (en.2 : Rat) / (e : Rat)
    else if (olookup ko0 stk.account_id).isSome then 0 else (en.2 : Rat) / (e : Rat)
  | _, _ => 0

/-- The strict-max scan performed by the loop: the first entry whose value
strictly exceeds the running maximum is kept. -/
def scanMax (f : Nat × Nat → Rat) : List (Nat × Nat) → Rat → Option Nat → Rat × Option Nat
  | [], mr, ma => (mr, ma)
  | en :: rest, mr, ma =>
    if mr < f en then scanMax f rest (f en) (some en.1) else scanMax f rest mr ma

/-- Whether some tracked validator is newly retained (rate at or above the
threshold and no pre-existing marker); the rescue runs only when none is. -/
def anyRetained (vals : List ValidatorStake) (kt : Rat) (expected : List (Nat × Nat))
    (ko0 : List (Nat × Bool)) (tracker : List (Nat × Nat)) : Bool :=
  tracker.any (fun en =>
    match olookup expected en.1, vals.get? en.1 with
    | some e, some stk =>
      if (en.2 : Rat) / (e : Rat) < kt then false
      else !(olookup ko0 stk.account_id).isSome
    | _, _ => false)

/-- The rescue choice: when no validator was newly retained, the first
tracker entry attaining the strictly largest adjusted rate (none when every
adjusted rate is 0). -/
def rescueChoice (vals : List ValidatorStake) (kt : Rat) (expected : List (Nat × Nat))
    (ko0 : List (Nat × Bool)) (tracker : List (Nat × Nat)) : Option Nat :=
  if anyRetained vals kt expected ko0 tracker then none
  else (scanMax (effRate vals kt expected ko0) tracker 0 none).2

/-- A tracker entry is resolvable when its validator id has an
expected-block count (positive, as counts of scheduled blocks are) and a
validator record. -/
def resolvableB (vals : List ValidatorStake) (expected : List (Nat × Nat))
    (en : Nat × Nat) : Bool :=
  match olookup expected en.1, vals.get? en.1 with
  | some e, some _ => decide (0 < e)
  | _, _ => false

/-- The account id behind a tracker entry. -/
def acctD (vals : List ValidatorStake) (en : Nat × Nat) : Nat :=
  ((vals.get? en.1).map (fun stk => stk.account_id)).getD 0

theorem scanMax_some (f : Nat × Nat → Rat) :
    ∀ l mr ma i, 0 ≤ mr → (scanMax f l mr ma).2 = some i →
      ma = some i ∨ ∃ en ∈ l, en.1 = i ∧ 0 < f en := by
  intro l
  induction l with
  | nil =>
    intro mr ma i _ h
    exact Or.inl h
  | cons en rest ih =>
    intro mr ma i h0 h
    rw [scanMax] at h
    by_cases hlt : mr < f en
    · rw [if_pos hlt] at h
      rcases ih (f en) (some en.1) i (le_of_lt (lt_of_le_of_lt h0 hlt)) h with h2 | h2
      · cases h2
        exact Or.inr ⟨en, List.mem_cons_self _ _, rfl, lt_of_le_of_lt h0 hlt⟩
      · obtain ⟨en2, hmem, hi, hf⟩ := h2
        exact Or.inr ⟨en2, List.mem_cons_of_mem _ hmem, hi, hf⟩
    · rw [if_neg hlt] at h
      rcases ih mr ma i h0 h with h2 | h2
      · exact Or.inl h2
      · obtain ⟨en2, hmem, hi, hf⟩ := h2
        exact Or.inr ⟨en2, List.mem_cons_of_mem _ hmem, hi, hf⟩

theorem nodup_keys_unique {α : Type} (l : List (Nat × α))
    (h : (l.map (fun e => e.1)).Nodup) :
    ∀ x ∈ l, ∀ y ∈ l, x.1 = y.1 → x = y := by
  induction l with
  | nil =>
    intro x hx
    simp at hx
  | cons e rest ih =>
    rw [List.map_cons, List.nodup_cons] at h
    obtain ⟨hnin, hrest⟩ := h
    intro x hx y hy hxy
    rcases List.mem_cons.mp hx with hx1 | hx1
    · rcases List.mem_cons.mp hy with hy1 | hy1
      · rw [hx1, hy1]
      · exfalso
        subst hx1
        exact hnin (hxy ▸ List.mem_map_of_mem (fun e => e.1) hy1)
    · rcases List.mem_cons.mp hy with hy1 | hy1
      · exfalso
        subst hy1
        exact hnin (hxy ▸ List.mem_map_of_mem (fun e => e.1) hx1)
      · exact ih hrest x hx1 y hy1 hxy

theorem koFold_spec (vals : List ValidatorStake) (kt : Rat) (expected : List (Nat × Nat))
    (ko0 : List (Nat × Bool)) :
    ∀ tracker st,
      (∀ en ∈ tracker, resolvableB vals expected en = true) →
      ((tracker.map (fun en => en.1)).Nodup) →
      (∀ x ∈ tracker, ∀ y ∈ tracker, x.1 ≠ y.1 → acctD vals x ≠ acctD vals y) →
      (∀ en ∈ tracker, olookup st.ko (acctD vals en) = olookup ko0 (acctD vals en)) →
      ∃ st2, koFold vals kt expected tracker st = some st2 ∧
        (∀ en ∈ tracker, ∀ e stk, olookup expected en.1 = some e →
          vals.get? en.1 = some stk →
          olookup st2.ko stk.account_id =
            (if (en.2 : Rat) / (e : Rat) < kt then some true
             else
               match olookup ko0 stk.account_id with
               | some b => some b
               | none => some false)) ∧
        (∀ a, (∀ en ∈ tracker, acctD vals en ≠ a) →
          olookup st2.ko a = olookup st.ko a) ∧
        st2.allk = (st.allk && !anyRetained vals kt expected ko0 tracker) ∧
        (st2.maxr, st2.maxa) =
          scanMax (effRate vals kt expected ko0) tracker st.maxr st.maxa := by
  intro tracker
  induction tracker with
  | nil =>
    intro st _ _ _ _
    refine ⟨st, rfl, by simp, fun a _ => rfl, ?_, rfl⟩
    simp [anyRetained]
  | cons en rest ih =>
    intro st hres hkeys hdist hko
    have hresEn := hres en (List.mem_cons_self _ _)
    rw [List.map_cons, List.nodup_cons] at hkeys
    obtain ⟨hknotin, hkeysrest⟩ := hkeys
    cases he : olookup expected en.1 with
    | none =>
      unfold resolvableB at hresEn
      rw [he] at hresEn
      exact Bool.noConfusion hresEn
    | some e =>
      cases hstk : vals.get? en.1 with
      | none =>
        unfold resolvableB at hresEn
        rw [he, hstk] at hresEn
        exact Bool.noConfusion hresEn
      | some stk =>
        have hacct : acctD vals en = stk.account_id := by
          rw [acctD, hstk]
          rfl
        have hko0en : olookup st.ko stk.account_id = olookup ko0 stk.account_id := by
          have hh := hko en (List.mem_cons_self _ _)
          rw [hacct] at hh
          exact hh
        have hdistrest : ∀ q ∈ rest, acctD vals q ≠ stk.account_id := by
          intro q hq hEq
          have hne : q.1 ≠ en.1 := by
            intro hEq2
            exact hknotin (hEq2 ▸ List.mem_map_of_mem (fun en => en.1) hq)
          exact hdist q (List.mem_cons_of_mem _ hq) en (List.mem_cons_self _ _) hne
            (hEq.trans hacct.symm)
        have hresR := fun q hq => hres q (List.mem_cons_of_mem _ hq)
        have hdistR := fun x hx y hy => hdist x (List.mem_cons_of_mem _ hx) y
          (List.mem_cons_of_mem _ hy)
        have hfold : ∀ st2, koStep vals kt expected st en = some st2 →
            koFold vals kt expected (en :: rest) st = koFold vals kt expected rest st2 := by
          intro st2 hks
          rw [koFold, hks]
        by_cases hr : (en.2 : Rat) / (e : Rat) < kt
        · -- below threshold: marked kicked, rate participates in the scan
          have hks : koStep vals kt expected st en = some
              ⟨oinsert st.ko stk.account_id true, st.allk,
                if st.maxr < (en.2 : Rat) / (e : Rat) then (en.2 : Rat) / (e : Rat)
                else st.maxr,
                if st.maxr < (en.2 : Rat) / (e : Rat) then some en.1 else st.maxa⟩ := by
            unfold koStep
            simp only [he, hstk]
            rw [if_pos hr]
          have hko2 : ∀ q ∈ rest,
              olookup (oinsert st.ko stk.account_id true) (acctD vals q) =
                olookup ko0 (acctD vals q) := by
            intro q hq
            rw [olookup_oinsert_ne _ _ _ _ (hdistrest q hq)]
            exact hko q (List.mem_cons_of_mem _ hq)
          obtain ⟨st3, hfold3, G1, G2, G3, G4⟩ :=
            ih ⟨oinsert st.ko stk.account_id true, st.allk,
                if st.maxr < (en.2 : Rat) / (e : Rat) then (en.2 : Rat) / (e : Rat)
                else st.maxr,
                if st.maxr < (en.2 : Rat) / (e : Rat) then some en.1 else st.maxa⟩
              hresR hkeysrest hdistR hko2
          simp only [] at G2 G3 G4
          have hany : anyRetained vals kt expected ko0 (en :: rest) =
              anyRetained vals kt expected ko0 rest := by
            unfold anyRetained
            rw [List.any_cons]
            simp only [he, hstk]
            rw [if_pos hr]
            simp
          have hfen : effRate vals kt expected ko0 en = (en.2 : Rat) / (e : Rat) := by
            unfold effRate
            simp only [he, hstk]
            rw [if_pos hr]
          refine ⟨st3, ?_, ?_, ?_, ?_, ?_⟩
          · rw [hfold _ hks]
            exact hfold3
          · intro q hq e2 stk2 he2 hstk2
            rcases List.mem_cons.mp hq with hq1 | hq1
            · subst hq1
              rw [he] at he2
              cases he2
              rw [hstk] at hstk2
              cases hstk2
              rw [if_pos hr]
              have h2 := G2 stk.account_id hdistrest
              rw [h2]
              exact olookup_oinsert_self _ _ _
            · exact G1 q hq1 e2 stk2 he2 hstk2
          · intro a ha
            have h1 := G2 a (fun q hq => ha q (List.mem_cons_of_mem _ hq))
            rw [h1]
            exact olookup_oinsert_ne _ _ _ _
              (fun hEq => ha en (List.mem_cons_self _ _) (hacct.trans hEq.symm))
          · rw [G3, hany]
          · rw [G4, scanMax, hfen]
            by_cases hmx : st.maxr < (en.2 : Rat) / (e : Rat)
            · rw [if_pos hmx, if_pos hmx, if_pos hmx]
            · rw [if_neg hmx, if_neg hmx, if_neg hmx]
        · by_cases hmark : (olookup ko0 stk.account_id).isSome
          · -- at/above threshold with a pre-existing marker: untouched, rate zeroed
            have hks : koStep vals kt expected st en = some
                ⟨st.ko, st.allk, if st.maxr < 0 then 0 else st.maxr,
                  if st.maxr < 0 then some en.1 else st.maxa⟩ := by
              unfold koStep
              simp only [he, hstk]
              rw [if_neg hr, if_pos (by rw [hko0en]; exact hmark)]
            have hko2 : ∀ q ∈ rest,
                olookup st.ko (acctD vals q) = olookup ko0 (acctD vals q) :=
              fun q hq => hko q (List.mem_cons_of_mem _ hq)
            obtain ⟨st3, hfold3, G1, G2, G3, G4⟩ :=
              ih ⟨st.ko, st.allk, if st.maxr < 0 then 0 else st.maxr,
                  if st.maxr < 0 then some en.1 else st.maxa⟩
                hresR hkeysrest hdistR hko2
            simp only [] at G2 G3 G4
            have hany : anyRetained vals kt expected ko0 (en :: rest) =
                anyRetained vals kt expected ko0 rest := by
              unfold anyRetained
              rw [List.any_cons]
              simp only [he, hstk]
              rw [if_neg hr]
              simp [hmark]
            have hfen : effRate vals kt expected ko0 en = 0 := by
              unfold effRate
              simp only [he, hstk]
              rw [if_neg hr, if_pos hmark]
            refine ⟨st3, ?_, ?_, ?_, ?_, ?_⟩
            · rw [hfold _ hks]
              exact hfold3
            · intro q hq e2 stk2 he2 hstk2
              rcases List.mem_cons.mp hq with hq1 | hq1
              · subst hq1
                rw [he] at he2
                cases he2
                rw [hstk] at hstk2
                cases hstk2
                rw [if_neg hr]
                have h2 := G2 stk.account_id hdistrest
                rw [h2, hko0en]
                cases hb : olookup ko0 stk.account_id with
                | none => rw [hb] at hmark; simp at hmark
                | some b => rfl
              · exact G1 q hq1 e2 stk2 he2 hstk2
            · intro a ha
              exact G2 a (fun q hq => ha q (List.mem_cons_of_mem _ hq))
            · rw [G3, hany]
            · rw [G4, scanMax, hfen]
              by_cases hmx : st.maxr < (0 : Rat)
              · rw [if_pos hmx, if_pos hmx, if_pos hmx]
              · rw [if_neg hmx, if_neg hmx, if_neg hmx]
          · -- at/above threshold, no marker: marked not kicked, clears all_kicked_out
            have hks : koStep vals kt expected st en = some
                ⟨oinsert st.ko stk.account_id false, false,
                  if st.maxr < (en.2 : Rat) / (e : Rat) then (en.2 : Rat) / (e : Rat)
                  else st.maxr,
                  if st.maxr < (en.2 : Rat) / (e : Rat) then some en.1 else st.maxa⟩ := by
              unfold koStep
              simp only [he, hstk]
              rw [if_neg hr, if_neg (by rw [hko0en]; exact hmark)]
            have hko2 : ∀ q ∈ rest,
                olookup (oinsert st.ko stk.account_id false) (acctD vals q) =
                  olookup ko0 (acctD vals q) := by
              intro q hq
              rw [olookup_oinsert_ne _ _ _ _ (hdistrest q hq)]
              exact hko q (List.mem_cons_of_mem _ hq)
            obtain ⟨st3, hfold3, G1, G2, G3, G4⟩ :=
              ih ⟨oinsert st.ko stk.account_id false, false,
                  if st.maxr < (en.2 : Rat) / (e : Rat) then (en.2 : Rat) / (e : Rat)
                  else st.maxr,
                  if st.maxr < (en.2 : Rat) / (e : Rat) then some en.1 else st.maxa⟩
                hresR hkeysrest hdistR hko2
            simp only [] at G2 G3 G4
            have hany : anyRetained vals kt expected ko0 (en :: rest) = true := by
              unfold anyRetained
              rw [List.any_cons]
              simp only [he, hstk]
              rw [if_neg hr]
              simp [hmark]
            have hfen : effRate vals kt expected ko0 en = (en.2 : Rat) / (e : Rat) := by
              unfold effRate
              simp only [he, hstk]
              rw [if_neg hr, if_neg hmark]
            refine ⟨st3, ?_, ?_, ?_, ?_, ?_⟩
            · rw [hfold _ hks]
              exact hfold3
            · intro q hq e2 stk2 he2 hstk2
              rcases List.mem_cons.mp hq with hq1 | hq1
              · subst hq1
                rw [he] at he2
                cases he2
                rw [hstk] at hstk2
                cases hstk2
                rw [if_neg hr]
                have h2 := G2 stk.account_id hdistrest
                rw [h2]
                cases hb : olookup ko0 stk.account_id with
                | none => exact olookup_oinsert_self _ _ _
                | some b => rw [hb] at hmark; simp at hmark
              · exact G1 q hq1 e2 stk2 he2 hstk2
            · intro a ha
              have h1 := G2 a (fun q hq => ha q (List.mem_cons_of_mem _ hq))
              rw [h1]
              exact olookup_oinsert_ne _ _ _ _
                (fun hEq => ha en (List.mem_cons_self _ _) (hacct.trans hEq.symm))
            · rw [G3, hany]
              simp
            · rw [G4, scanMax, hfen]
              by_cases hmx : st.maxr < (en.2 : Rat) / (e : Rat)
              · rw [if_pos hmx, if_pos hmx, if_pos hmx]
              · rw [if_neg hmx, if_neg hmx, if_neg hmx]

/-- C4 (amended): with the tracker given in the HashMap's iteration order,
(1) a tracked validator with rate below the threshold is marked kicked out
unless it is the rescue choice; (2) one with rate at or above the threshold
and no pre-existing marker is marked not kicked out; (3) one with rate at or
above the threshold whose account already carries a marker KEEPS that marker
- the code does not override it - and counts as rate 0 for the rescue; and
(4) when no validator was newly retained, the rescue choice (the first entry
in iteration order attaining the strictly largest adjusted rate, if any
adjusted rate is positive) is marked not kicked out.  When every adjusted
rate is 0 nobody is rescued and the kickout map can kick every validator. -/
theorem finalize_kickout_behaviour (vals : List ValidatorStake) (kt : Rat)
    (expected : List (Nat × Nat)) (tracker : List (Nat × Nat))
    (ko0 : List (Nat × Bool)) (ko2 : List (Nat × Bool))
    (hres : ∀ en ∈ tracker, resolvableB vals expected en = true)
    (hkeys : (tracker.map (fun en => en.1)).Nodup)
    (hdist : ∀ x ∈ tracker, ∀ y ∈ tracker, x.1 ≠ y.1 → acctD vals x ≠ acctD vals y)
    (hko : computeKickout vals kt expected tracker ko0 = some ko2) :
    (∀ en ∈ tracker, ∀ e stk, olookup expected en.1 = some e →
        vals.get? en.1 = some stk → (en.2 : Rat) / (e : Rat) < kt →
        rescueChoice vals kt expected ko0 tracker ≠ some en.1 →
        olookup ko2 stk.account_id = some true) ∧
    (∀ en ∈ tracker, ∀ e stk, olookup expected en.1 = some e →
        vals.get? en.1 = some stk → ¬ (en.2 : Rat) / (e : Rat) < kt →
        olookup ko0 stk.account_id = none →
        olookup ko2 stk.account_id = some false) ∧
    (∀ en ∈ tracker, ∀ e stk b, olookup expected en.1 = some e →
        vals.get? en.1 = some stk → ¬ (en.2 : Rat) / (e : Rat) < kt →
        olookup ko0 stk.account_id = some b →
        olookup ko2 stk.account_id = some b) ∧
    (∀ i stk, rescueChoice vals kt expected ko0 tracker = some i →
        vals.get? i = some stk → olookup ko2 stk.account_id = some false) := by
  obtain ⟨st2, hfold, F1, F2, F3, F4⟩ :=
    koFold_spec vals kt expected ko0 tracker ⟨ko0, true, 0, none⟩ hres hkeys hdist
      (fun en _ => rfl)
  unfold computeKickout at hko
  rw [hfold] at hko
  dsimp only at hko
  simp only [Bool.true_and] at F3
  by_cases hAR : anyRetained vals kt expected ko0 tracker
  · have hallk : st2.allk = false := by rw [F3, hAR]; rfl
    rw [hallk] at hko
    rw [if_neg Bool.false_ne_true] at hko
    cases hko
    have hrc : rescueChoice vals kt expected ko0 tracker = none := by
      unfold rescueChoice
      rw [if_pos hAR]
    refine ⟨?_, ?_, ?_, ?_⟩
    · intro en hen e stk he hstk hr _
      have hF := F1 en hen e stk he hstk
      rw [if_pos hr] at hF
      exact hF
    · intro en hen e stk he hstk hr hb
      have hF := F1 en hen e stk he hstk
      rw [if_neg hr, hb] at hF
      exact hF
    · intro en hen e stk b he hstk hr hb
      have hF := F1 en hen e stk he hstk
      rw [if_neg hr, hb] at hF
      exact hF
    · intro i stk hchoice _
      rw [hrc] at hchoice
      exact absurd hchoice (by simp)
  · have hallk : st2.allk = true := by rw [F3, Bool.eq_false_iff.mpr hAR]; rfl
    rw [hallk] at hko
    rw [if_pos rfl] at hko
    have hsnd := congrArg Prod.snd F4
    simp only [] at hsnd
    have hrc : rescueChoice vals kt expected ko0 tracker =
        (scanMax (effRate vals kt expected ko0) tracker 0 none).2 := by
      unfold rescueChoice
      rw [if_neg hAR]
    cases hma : st2.maxa with
    | none =>
      rw [hma] at hko
      cases hko
      have hrc2 : rescueChoice vals kt expected ko0 tracker = none := by
        rw [hrc, ← hsnd, hma]
      refine ⟨?_, ?_, ?_, ?_⟩
      · intro en hen e stk he hstk hr _
        have hF := F1 en hen e stk he hstk
        rw [if_pos hr] at hF
        exact hF
      · intro en hen e stk he hstk hr hb
        exfalso
        apply hAR
        unfold anyRetained
        rw [List.any_eq_true]
        refine ⟨en, hen, ?_⟩
        simp only [he, hstk]
        rw [if_neg hr, hb]
        rfl
      · intro en hen e stk b he hstk hr hb
        have hF := F1 en hen e stk he hstk
        rw [if_neg hr, hb] at hF
        exact hF
      · intro i stk hchoice _
        rw [hrc2] at hchoice
        exact absurd hchoice (by simp)
    | some i =>
      rw [hma] at hko
      dsimp only at hko
      cases hgi : vals.get? i with
      | none =>
        rw [hgi] at hko
        exact absurd hko (by simp)
      | some stkR =>
        rw [hgi] at hko
        cases hko
        have hrc2 : rescueChoice vals kt expected ko0 tracker = some i := by
          rw [hrc, ← hsnd, hma]
        have hscan := scanMax_some (effRate vals kt expected ko0) tracker 0 none i
          (le_refl 0) (by rw [← hsnd, hma])
        rcases hscan with hcontr | hscan
        · exact absurd hcontr (by simp)
        obtain ⟨enR, hmemR, hiR, hfR⟩ := hscan
        have hacctR : acctD vals enR = stkR.account_id := by
          rw [acctD, hiR, hgi]
          rfl
        refine ⟨?_, ?_, ?_, ?_⟩
        · intro en hen e stk he hstk hr hne
          have hid : en.1 ≠ i := by
            intro hEq
            exact hne (hrc2.trans (by rw [hEq]))
          have hneq : stk.account_id ≠ stkR.account_id := by
            have hda := hdist en hen enR hmemR (fun h2 => hid (h2.trans hiR))
            have h1 : acctD vals en = stk.account_id := by rw [acctD, hstk]; rfl
            intro hEq
            exact hda (by rw [h1, hacctR, hEq])
          have hF := F1 en hen e stk he hstk
          rw [if_pos hr] at hF
          rw [olookup_oinsert_ne _ _ _ _ hneq]
          exact hF
        · intro en hen e stk he hstk hr hb
          exfalso
          apply hAR
          unfold anyRetained
          rw [List.any_eq_true]
          refine ⟨en, hen, ?_⟩
          simp only [he, hstk]
          rw [if_neg hr, hb]
          rfl
        · intro en hen e stk b he hstk hr hb
          have hid : en.1 ≠ i := by
            intro hEq
            have hEn : enR = en :=
              nodup_keys_unique tracker hkeys enR hmemR en hen (by rw [hiR, hEq])
            rw [hEn] at hfR
            have hz : effRate vals kt expected ko0 en = 0 := by
              unfold effRate
              simp only [he, hstk]
              rw [if_neg hr, if_pos (by rw [hb]; rfl)]
            rw [hz] at hfR
            exact absurd hfR (by simp)
          have hneq : stk.account_id ≠ stkR.account_id := by
            have hda := hdist en hen enR hmemR (fun h2 => hid (h2.trans hiR))
            have h1 : acctD vals en = stk.account_id := by rw [acctD, hstk]; rfl
            intro hEq
            exact hda (by rw [h1, hacctR, hEq])
          have hF := F1 en hen e stk he hstk
          rw [if_neg hr, hb] at hF
          rw [olookup_oinsert_ne _ _ _ _ hneq]
          exact hF
        · intro i0 stk0 hchoice hstk0
          rw [hrc2] at hchoice
          cases hchoice
          rw [hgi] at hstk0
          cases hstk0
          exact olookup_oinsert_self _ _ _

/-- C4 counterexample to the claim as stated: validator account 1 has liveness
rate 2/2 = 1, at or above the threshold 9/10, and carries a prior zero-stake
marker `(1, true)` in the kickout map.  The claim says the marker is
overridden to `false`; the code keeps it at `true` (it only inserts `false`
when `!kickout.contains_key(account_id)`), and no rescue happens because the
adjusted rate of a marked validator counts as 0. -/
theorem finalize_kickout_counterexample :
    computeKickout [⟨1, 0, 10⟩] (9/10) [(0, 2)] [(0, 2)] [(1, true)]
      = some [(1, true)] ∧
    ¬ ((2 : Rat) / (2 : Rat) < 9/10) := by
  constructor
  · norm_num [computeKickout, koFold, koStep, olookup, oinsert]
  · norm_num

/-- Closed witness for `finalize_kickout_behaviour`: one validator, rate
2/2 = 1 at or above threshold 1/2, no prior marker; the theorem's second
clause yields the `some false` marker. -/
theorem finalize_kickout_behaviour_witness :
    computeKickout [⟨5, 0, 100⟩] (1/2) [(0, 2)] [(0, 2)] []
      = some [(5, false)] ∧
    olookup [(5, false)] 5 = some false := by
  refine ⟨by norm_num [computeKickout, koFold, koStep, olookup, oinsert], ?_⟩
  exact (finalize_kickout_behaviour [⟨5, 0, 100⟩] (1/2) [(0, 2)] [(0, 2)] []
      [(5, false)] (by decide) (by decide) (by decide)
      (by norm_num [computeKickout, koFold, koStep, olookup, oinsert])).2.1
    (0, 2) (by decide) 2 ⟨5, 0, 100⟩ (by rfl) (by rfl) (by norm_num) (by rfl)
